import Mathlib

/-! A shallow embedding of the forwardauth forward-authentication middleware.

The development embeds `demo.go` (`ServeHTTP`, `writeHeader`,
`filterForwardRequestHeaders`, `runHeadersRegex`) and `pkg/utils/utils.go`
(`CopyHeaders`, `RemoveHeaders`) as pure Lean functions and proves properties
of them.

A Go `http.Header` is a `map[string][]string`.  It is embedded as an
association list of `(key, values)` pairs; `range` over a map visits the pairs
in list order, and since the list order of an input is arbitrary every
iteration order of an input map is covered.  Map indexing reads the first pair
with the key, deletion removes every pair with the key, assignment replaces the
pair in place (or appends a new one), so the operations behave as a map whether
or not the keys of the list are distinct.

`writeHeader` is embedded a second time with the value lists as Go slices in a
store of backing arrays (`writeHeaderRef`), to state what it leaves untouched;
that embedding is proved to compute the header map of the first.
-/

namespace Forwardauth

/-! ## Header maps -/

/-- A Go `http.Header`: `map[string][]string`. -/
abbrev Header := List (String × List String)

/-- The two-result map read `v, ok := h[k]`: `none` when the key is absent. -/
def Header.lookup : Header → String → Option (List String)
  | [], _ => none
  | (k', vs) :: rest, k => if k' = k then some vs else Header.lookup rest k

/-- The map read `h[k]`: the nil slice when the key is absent. -/
def Header.index (h : Header) (k : String) : List String :=
  (h.lookup k).getD []

/-- The builtin `delete(h, k)`. -/
def Header.delete : Header → String → Header
  | [], _ => []
  | (k', vs) :: rest, k =>
    if k' = k then Header.delete rest k else (k', vs) :: Header.delete rest k

/-- The map write `h[k] = vs`: the pair with the key is replaced where it
stands, a new key is added at the end. -/
def Header.assign : Header → String → List String → Header
  | [], k, vs => [(k, vs)]
  | (k', ws) :: rest, k, vs =>
    if k' = k then (k, vs) :: Header.delete rest k
    else (k', ws) :: Header.assign rest k vs

/-- The keys of the map, in iteration order. -/
def Header.keys (h : Header) : List String := h.map Prod.fst

/-! ## `net/textproto` canonical header keys -/

/-- The token bytes of textproto.validHeaderFieldByte: ASCII letters, digits
and fifteen punctuation characters, listed by code point (33 is the
exclamation mark, 45 the dash, 126 the tilde). -/
def validHeaderFieldByte (c : Char) : Bool :=
  c.isAlphanum || decide (c.toNat ∈ [33, 35, 36, 37, 38, 39, 42, 43, 45, 46, 94, 95, 96, 124, 126])

/-- One step of the rewriting loop of `textproto.canonicalMIMEHeaderKey`: with
`upper` set a lower-case letter is raised (`c -= toLower`), without it an
upper-case letter is lowered (`c += toLower`); `toLower` is 32. -/
def canonicalByte (upper : Bool) (c : Char) : Char :=
  if upper && c.isLower then Char.ofNat (c.toNat - 32)
  else if !upper && c.isUpper then Char.ofNat (c.toNat + 32)
  else c

/-- The rewriting loop of `textproto.canonicalMIMEHeaderKey`: the first letter
and every letter after a dash in upper case, every other letter in lower
case.  `upper` is the loop variable of the same name. -/
def canonicalLoop : Bool → List Char → List Char
  | _, [] => []
  | upper, c :: cs =>
    let c' := canonicalByte upper c
    c' :: canonicalLoop (c' == '-') cs

/-- Go `http.CanonicalHeaderKey` (`textproto.CanonicalMIMEHeaderKey`): a key
holding a byte that is not a token byte is returned unchanged, any other key is
rewritten by `canonicalLoop`. -/
def CanonicalHeaderKey (s : String) : String :=
  if s.data.all validHeaderFieldByte then String.mk (canonicalLoop true s.data) else s

/-- Go `Header.Get`: the first value under the canonical key, `""` if none. -/
def Header.Get (h : Header) (key : String) : String :=
  match h.index (CanonicalHeaderKey key) with
  | [] => ""
  | v :: _ => v

/-- Go `Header.Values`: the value list under the canonical key. -/
def Header.Values (h : Header) (key : String) : List String :=
  h.index (CanonicalHeaderKey key)

/-- Go `Header.Set`: the canonical key is set to the single value. -/
def Header.Set (h : Header) (key value : String) : Header :=
  h.assign (CanonicalHeaderKey key) [value]

/-- Go `Header.Del`: the canonical key is deleted. -/
def Header.Del (h : Header) (key : String) : Header :=
  h.delete (CanonicalHeaderKey key)

/-! ## Compiled regular expressions -/

/-- A compiled `*regexp.Regexp`, known through `MatchString` alone. -/
structure Regexp where
  MatchString : String → Bool

/-! ## `runHeadersRegex` (demo.go 320-339) -/

/-- The `for ... range headersRegex` loop of `runHeadersRegex`: the first entry
whose header is empty or does not match returns false. -/
def runHeadersRegexLoop (headers : Header) : List (String × Regexp) → Bool
  | [] => true
  | (hKey, regex) :: rest =>
    let hv := headers.Get hKey
    if hv = "" || !regex.MatchString hv then false
    else runHeadersRegexLoop headers rest

/-- The gate `runHeadersRegex`; `headersRegex` is the map as a list of its
entries in the order the `range` visits them. -/
def runHeadersRegex (headers : Header) (headersRegex : List (String × Regexp)) : Bool :=
  if headersRegex.length = 0 then true
  else runHeadersRegexLoop headers headersRegex

/-! ## `pkg/forward` constants and `hopHeaders` (demo.go 44-60) -/

def XForwardedProto : String := "X-Forwarded-Proto"
def XForwardedFor : String := "X-Forwarded-For"
def XForwardedHost : String := "X-Forwarded-Host"
def XForwardedPort : String := "X-Forwarded-Port"
def Connection : String := "Connection"
def KeepAlive : String := "Keep-Alive"
def ProxyAuthorization : String := "Proxy-Authorization"
def Te : String := "Te"
def Trailers : String := "Trailers"
def TransferEncoding : String := "Transfer-Encoding"
def Upgrade : String := "Upgrade"
def xForwardedURI : String := "X-Forwarded-Uri"
def xForwardedMethod : String := "X-Forwarded-Method"

/-- The hop-by-hop headers removed from the authentication request. -/
def hopHeaders : List String :=
  [Connection, KeepAlive, Te, Trailers, TransferEncoding, Upgrade]

/-! ## `pkg/utils` (utils.go) -/

/-- The function `utils.CopyHeaders`: for every entry `k, vv` of `src`,
`dst[k] = append(dst[k], vv...)`. -/
def CopyHeaders (dst src : Header) : Header :=
  src.foldl (fun d e => d.assign e.1 (d.index e.1 ++ e.2)) dst

/-- The function `utils.RemoveHeaders`: `headers.Del(h)` for every name. -/
def RemoveHeaders (headers : Header) (names : List String) : Header :=
  names.foldl (fun hs h => hs.Del h) headers

/-! ## Requests, responses and the middleware -/

/-- The part of `*url.URL` the middleware reads: the string its `RequestURI()`
method returns (path and query). -/
structure URL where
  requestURI : String
deriving DecidableEq, Repr

/-- The fields of the inbound `*http.Request` the middleware reads or writes.
`TLS` is true when `req.TLS != nil`. -/
structure Request where
  Header : Header
  RemoteAddr : String
  Method : String
  TLS : Bool
  Host : String
  URL : URL
  RequestURI : String
deriving DecidableEq, Repr

/-- The authentication endpoint's `*http.Response`; `Body` is the result of
`io.ReadAll(forwardResponse.Body)`. -/
structure Response where
  StatusCode : Int
  Header : Header
  Body : Except String String

/-- The receiver `ForwardAuth` (demo.go 62-72), without the HTTP client and the
next handler, which are part of the environment. -/
structure ForwardAuth where
  address : String
  authResponseHeaders : List String
  authResponseHeadersRegex : Option Regexp
  trustForwardHeader : Bool
  authRequestHeaders : List String
  runIfHeadersRegex : List (String × Regexp)

/-! ## `net.SplitHostPort` -/

/-- Index of the last occurrence of `c`, if any. -/
def lastIndexByte (s : List Char) (c : Char) : Option Nat :=
  if c ∈ s then some (s.length - 1 - s.reverse.indexOf c) else none

/-- Index of the first occurrence of `c`, if any. -/
def indexByte (s : List Char) (c : Char) : Option Nat :=
  if c ∈ s then some (s.indexOf c) else none

/-- Go `net.SplitHostPort` on the characters of the address: the host and port
around the last colon, with the bracketed form for IPv6 literals; `none` for
each of its errors. -/
def splitHostPortChars (hostport : List Char) : Option (List Char × List Char) :=
  match lastIndexByte hostport ':' with
  | none => none
  | some i =>
    let r : Option (List Char × Nat × Nat) :=
      if hostport.head? = some '[' then
        match indexByte hostport ']' with
        | none => none
        | some e =>
          if e + 1 = hostport.length then none
          else if e + 1 = i then some ((hostport.take e).drop 1, 1, e + 1)
          else none
      else
        let host := hostport.take i
        if ':' ∈ host then none else some (host, 0, 0)
    match r with
    | none => none
    | some (host, j, k) =>
      if '[' ∈ hostport.drop j then none
      else if ']' ∈ hostport.drop k then none
      else some (host, hostport.drop (i + 1))

/-- Go `net.SplitHostPort`. -/
def SplitHostPort (hostport : String) : Option (String × String) :=
  (splitHostPortChars hostport.data).map (fun p => (String.mk p.1, String.mk p.2))

/-! ## `filterForwardRequestHeaders` (demo.go 304-318) -/

def filterForwardRequestHeaders (forwardRequestHeaders : Header)
    (allowedHeaders : List String) : Header :=
  if allowedHeaders.length = 0 then forwardRequestHeaders
  else
    allowedHeaders.foldl (fun filteredHeaders headerName =>
      let values := forwardRequestHeaders.Values headerName
      if values.length > 0 then
        filteredHeaders.assign (CanonicalHeaderKey headerName) values
      else filteredHeaders) []

/-! ## `writeHeader` (demo.go 244-302) -/

/-- Lines 250-257: the client address of `X-Forwarded-For`, set when
`net.SplitHostPort(req.RemoteAddr)` succeeds. -/
def writeForwardedFor (req : Request) (trustForwardHeader : Bool) (h : Header) : Header :=
  match SplitHostPort req.RemoteAddr with
  | some (clientIP, _) =>
    let clientIP :=
      if trustForwardHeader then
        match req.Header.lookup XForwardedFor with
        | some prior => String.intercalate ", " prior ++ ", " ++ clientIP
        | none => clientIP
      else clientIP
    h.Set XForwardedFor clientIP
  | none => h

/-- The `switch` of lines 259-267, 283-291 and 293-301, which differ in the
header `name` and the value `actual` of the request only: the inbound header if
it is non-empty and trusted, else `actual` if non-empty, else the header is
deleted. -/
def writeTrusted (req : Request) (trustForwardHeader : Bool) (name actual : String)
    (h : Header) : Header :=
  let x := req.Header.Get name
  if x ≠ "" ∧ trustForwardHeader = true then h.Set name x
  else if actual ≠ "" then h.Set name actual
  else h.Del name

/-- Lines 269-277: `X-Forwarded-Proto`. -/
def writeForwardedProto (req : Request) (trustForwardHeader : Bool) (h : Header) : Header :=
  let xfp := req.Header.Get XForwardedProto
  if xfp ≠ "" ∧ trustForwardHeader = true then h.Set XForwardedProto xfp
  else if req.TLS = true then h.Set XForwardedProto "https"
  else h.Set XForwardedProto "http"

/-- Lines 279-281: `X-Forwarded-Port`. -/
def writeForwardedPort (req : Request) (trustForwardHeader : Bool) (h : Header) : Header :=
  let xfp := req.Header.Get XForwardedPort
  if xfp ≠ "" ∧ trustForwardHeader = true then h.Set XForwardedPort xfp
  else h

/-- The function `writeHeader(req, forwardReq, trustForwardHeader,
allowedHeaders)`: `forwardReqHeader` is `forwardReq.Header` before the call,
the result is `forwardReq.Header` after it.  `req` is only read. -/
def writeHeader (req : Request) (forwardReqHeader : Header) (trustForwardHeader : Bool)
    (allowedHeaders : List String) : Header :=
  let h := CopyHeaders forwardReqHeader req.Header
  let h := RemoveHeaders h hopHeaders
  let h := filterForwardRequestHeaders h allowedHeaders
  let h := writeForwardedFor req trustForwardHeader h
  let h := writeTrusted req trustForwardHeader xForwardedMethod req.Method h
  let h := writeForwardedProto req trustForwardHeader h
  let h := writeForwardedPort req trustForwardHeader h
  let h := writeTrusted req trustForwardHeader XForwardedHost req.Host h
  writeTrusted req trustForwardHeader xForwardedURI req.URL.requestURI h

/-! ## The environment of `ServeHTTP` -/

/-- The error of `forwardResponse.Location()`: `http.ErrNoLocation`, or an
error of parsing the header's value. -/
inductive LocationError where
  | ErrNoLocation
  | parse (msg : String)
deriving DecidableEq, Repr

/-- The calls `ServeHTTP` makes outside the repository.  `NewRequest address`
tells whether `http.NewRequest(http.MethodGet, address, nil)` succeeds; `Do
address header` is `fa.client.Do(forwardReq)`; `Parse address ref` is
`forwardReq.URL.Parse(ref)` followed by `String()`, the resolved location. -/
structure Env where
  NewRequest : String → Bool
  Do : String → Header → Except String Response
  Parse : String → String → Except String String

/-- Go `(*http.Response).Location`: `ErrNoLocation` when the `Location` header
is empty, the header resolved against the request URL otherwise. -/
def Response.Location (env : Env) (address : String) (r : Response) :
    Except LocationError String :=
  let lv := r.Header.Get "Location"
  if lv = "" then .error .ErrNoLocation
  else
    match env.Parse address lv with
    | .ok u => .ok u
    | .error e => .error (.parse e)

/-- What `ServeHTTP` does to the outside, in order. -/
inductive Event where
  | Do (forwardReqHeader : Header)
  | WriteHeader (statusCode : Int)
  | Write (body : String)
  | next (rwHeader : Header) (req : Request)
deriving DecidableEq, Repr

/-- The result of `ServeHTTP`: the header map of the response writer when it
returns, and the outbound call, the writes to the client and the call of the
next handler it made. -/
structure Outcome where
  rwHeader : Header
  events : List Event
deriving DecidableEq, Repr

/-! ## `ServeHTTP` (demo.go 132-242) -/

/-- Lines 218-224: for each name of `authResponseHeaders` the canonical key is
deleted from the request and set to a copy of the response's values if it has
any. -/
def mergeListed (respHeader : Header) (authResponseHeaders : List String)
    (reqHeader : Header) : Header :=
  authResponseHeaders.foldl (fun h headerName =>
    let headerKey := CanonicalHeaderKey headerName
    let h := h.Del headerKey
    if (respHeader.index headerKey).length > 0 then
      h.assign headerKey (respHeader.index headerKey)
    else h) reqHeader

/-- Lines 227-231: the `range req.Header` loop over the keys the map had when
the loop began; a key deleted before it is reached is not visited. -/
def deleteMatchingLoop (re : Regexp) : List String → Header → Header
  | [], h => h
  | headerKey :: rest, h =>
    if (h.lookup headerKey).isSome && re.MatchString headerKey then
      deleteMatchingLoop re rest (h.Del headerKey)
    else deleteMatchingLoop re rest h

/-- Lines 233-237: every response header whose key matches is copied. -/
def copyMatching (re : Regexp) (respHeader : Header) (reqHeader : Header) : Header :=
  respHeader.foldl (fun h e =>
    if re.MatchString e.1 then h.assign e.1 e.2 else h) reqHeader

/-- Lines 218-238: the headers of the request after a 2xx response. -/
def successMerge (fa : ForwardAuth) (respHeader : Header) (reqHeader : Header) : Header :=
  let h := mergeListed respHeader fa.authResponseHeaders reqHeader
  match fa.authResponseHeadersRegex with
  | some re =>
    let h := deleteMatchingLoop re h.keys h
    copyMatching re respHeader h
  | none => h

/-- The method `(*ForwardAuth).ServeHTTP(rw, req)`; `rwHeader` is `rw.Header()`
before the call. -/
def ServeHTTP (fa : ForwardAuth) (env : Env) (rwHeader : Header) (req : Request) : Outcome :=
  if !runHeadersRegex req.Header fa.runIfHeadersRegex then
    ⟨rwHeader, [.next rwHeader req]⟩
  else if !env.NewRequest fa.address then
    ⟨rwHeader, [.WriteHeader 500]⟩
  else
    let forwardReqHeader := writeHeader req [] fa.trustForwardHeader fa.authRequestHeaders
    match env.Do fa.address forwardReqHeader with
    | .error _ => ⟨rwHeader, [.Do forwardReqHeader, .WriteHeader 500]⟩
    | .ok forwardResponse =>
      match forwardResponse.Body with
      | .error _ => ⟨rwHeader, [.Do forwardReqHeader, .WriteHeader 500]⟩
      | .ok body =>
        if forwardResponse.StatusCode < 200 ∨ forwardResponse.StatusCode ≥ 300 then
          let rwHeader := CopyHeaders rwHeader forwardResponse.Header
          let rwHeader := RemoveHeaders rwHeader hopHeaders
          match forwardResponse.Location env fa.address with
          | .error err =>
            if err ≠ .ErrNoLocation then
              ⟨rwHeader, [.Do forwardReqHeader, .WriteHeader 500]⟩
            else
              ⟨rwHeader, [.Do forwardReqHeader, .WriteHeader forwardResponse.StatusCode,
                .Write body]⟩
          | .ok redirectURL =>
            let rwHeader :=
              if redirectURL ≠ "" then rwHeader.Set "Location" redirectURL else rwHeader
            ⟨rwHeader, [.Do forwardReqHeader, .WriteHeader forwardResponse.StatusCode,
              .Write body]⟩
        else
          let reqHeader := successMerge fa forwardResponse.Header req.Header
          let req := { req with Header := reqHeader, RequestURI := req.URL.requestURI }
          ⟨rwHeader, [.Do forwardReqHeader, .next rwHeader req]⟩

/-- The requests handed to the next handler, in order. -/
def nextCalls : List Event → List Request
  | [] => []
  | .next _ req :: rest => req :: nextCalls rest
  | _ :: rest => nextCalls rest

/-- The outbound calls made, in order. -/
def authCalls : List Event → List Header
  | [] => []
  | .Do h :: rest => h :: authCalls rest
  | _ :: rest => authCalls rest

/-- What the proofs below need of one rewriting step: it keeps token bytes
token bytes and it is idempotent. -/
def canonicalByteOk (upper : Bool) (c : Char) : Prop :=
  validHeaderFieldByte (canonicalByte upper c) = validHeaderFieldByte c ∧
    canonicalByte upper (canonicalByte upper c) = canonicalByte upper c

/-! ## Value lists by reference

In Go the value lists of a header map are slices: windows of backing arrays
that two maps may share.  To state that building the outbound request leaves
the inbound request as it was, `writeHeader` is embedded a second time with the
backing arrays in a store and the slices as references into it. -/

/-- A non-nil Go slice: the address of its backing array, its length and its
capacity. -/
structure Slice where
  array : Nat
  len : Nat
  cap : Nat
deriving DecidableEq, Repr

/-- The backing arrays, by address. -/
abbrev Store := List (List String)

/-- A header map whose value lists are slices; `none` is the nil slice. -/
abbrev RefHeader := List (String × Option Slice)

/-- The values of a slice: the first `len` cells of its backing array. -/
def Store.read (m : Store) : Option Slice → List String
  | none => []
  | some s => (m.getD s.array []).take s.len

/-- The header map a map of slices stands for in a store. -/
def Store.view (m : Store) (h : RefHeader) : Header :=
  h.map (fun e => (e.1, m.read e.2))

/-- The builtin `len`. -/
def sliceLen : Option Slice → Nat
  | none => 0
  | some s => s.len

/-- The builtin `append(s, vv...)`: within the capacity of `s` the values are
written into the backing array of `s` after its length; otherwise, and for a
nil slice, a new array is allocated at the end of the store.  Appending nothing
to a nil slice gives nil.  `grow n` is the capacity the runtime gives a new
array of `n` values. -/
def goAppend (grow : Nat → Nat) (m : Store) (s : Option Slice) (vv : List String) :
    Store × Option Slice :=
  match s with
  | none =>
    if vv = [] then (m, none)
    else (m ++ [vv], some ⟨m.length, vv.length, grow vv.length⟩)
  | some r =>
    if r.len + vv.length ≤ r.cap then
      (m.set r.array ((m.getD r.array []).take r.len ++ vv ++
          (m.getD r.array []).drop (r.len + vv.length)),
        some ⟨r.array, r.len + vv.length, r.cap⟩)
    else
      (m ++ [(m.getD r.array []).take r.len ++ vv],
        some ⟨m.length, r.len + vv.length, grow (r.len + vv.length)⟩)

/-- The two-result map read `v, ok := h[k]`. -/
def RefHeader.lookup : RefHeader → String → Option (Option Slice)
  | [], _ => none
  | (k', s) :: rest, k => if k' = k then some s else RefHeader.lookup rest k

/-- The map read `h[k]`: the nil slice when the key is absent. -/
def RefHeader.index (h : RefHeader) (k : String) : Option Slice :=
  (h.lookup k).getD none

/-- The builtin `delete(h, k)`. -/
def RefHeader.delete : RefHeader → String → RefHeader
  | [], _ => []
  | (k', s) :: rest, k =>
    if k' = k then RefHeader.delete rest k else (k', s) :: RefHeader.delete rest k

/-- The map write `h[k] = s`. -/
def RefHeader.assign : RefHeader → String → Option Slice → RefHeader
  | [], k, s => [(k, s)]
  | (k', s') :: rest, k, s =>
    if k' = k then (k, s) :: RefHeader.delete rest k
    else (k', s') :: RefHeader.assign rest k s

/-- The keys of the map. -/
def RefHeader.keys (h : RefHeader) : List String := h.map Prod.fst

/-- Go `Header.Del` on a map of slices. -/
def RefHeader.Del (h : RefHeader) (key : String) : RefHeader :=
  h.delete (CanonicalHeaderKey key)

/-- Go `Header.Set` on a map of slices: `h[key] = []string{value}`, a new array
of one cell. -/
def refSet (st : Store × RefHeader) (key value : String) : Store × RefHeader :=
  (st.1 ++ [[value]], st.2.assign (CanonicalHeaderKey key) (some ⟨st.1.length, 1, 1⟩))

/-- The function `utils.CopyHeaders` on maps of slices. -/
def CopyHeadersRef (grow : Nat → Nat) (m : Store) (dst src : RefHeader) :
    Store × RefHeader :=
  src.foldl (fun st e =>
    let r := goAppend grow st.1 (st.2.index e.1) (st.1.read e.2)
    (r.1, st.2.assign e.1 r.2)) (m, dst)

/-- The function `utils.RemoveHeaders` on a map of slices. -/
def RemoveHeadersRef (headers : RefHeader) (names : List String) : RefHeader :=
  names.foldl (fun hs h => hs.Del h) headers

/-- The function `filterForwardRequestHeaders` on a map of slices: each kept
value list is copied by `append([]string(nil), values...)`. -/
def filterForwardRequestHeadersRef (grow : Nat → Nat) (st : Store × RefHeader)
    (allowedHeaders : List String) : Store × RefHeader :=
  if allowedHeaders.length = 0 then st
  else
    allowedHeaders.foldl (fun acc headerName =>
      let values := st.2.index (CanonicalHeaderKey headerName)
      if sliceLen values > 0 then
        let r := goAppend grow acc.1 none (acc.1.read values)
        (r.1, acc.2.assign (CanonicalHeaderKey headerName) r.2)
      else acc) (st.1, [])

/-- Lines 250-257 on maps of slices; `reqHeader` is `req.Header`. -/
def writeForwardedForRef (reqHeader : RefHeader) (req : Request) (trustForwardHeader : Bool)
    (st : Store × RefHeader) : Store × RefHeader :=
  match SplitHostPort req.RemoteAddr with
  | some (clientIP, _) =>
    let clientIP :=
      if trustForwardHeader then
        match reqHeader.lookup XForwardedFor with
        | some prior => String.intercalate ", " (st.1.read prior) ++ ", " ++ clientIP
        | none => clientIP
      else clientIP
    refSet st XForwardedFor clientIP
  | none => st

/-- The `switch` of lines 259-267, 283-291 and 293-301 on maps of slices. -/
def writeTrustedRef (reqHeader : RefHeader) (trustForwardHeader : Bool)
    (name actual : String) (st : Store × RefHeader) : Store × RefHeader :=
  let x := (st.1.view reqHeader).Get name
  if x ≠ "" ∧ trustForwardHeader = true then refSet st name x
  else if actual ≠ "" then refSet st name actual
  else (st.1, st.2.Del name)

/-- Lines 269-277 on maps of slices. -/
def writeForwardedProtoRef (reqHeader : RefHeader) (req : Request)
    (trustForwardHeader : Bool) (st : Store × RefHeader) : Store × RefHeader :=
  let xfp := (st.1.view reqHeader).Get XForwardedProto
  if xfp ≠ "" ∧ trustForwardHeader = true then refSet st XForwardedProto xfp
  else if req.TLS = true then refSet st XForwardedProto "https"
  else refSet st XForwardedProto "http"

/-- Lines 279-281 on maps of slices. -/
def writeForwardedPortRef (reqHeader : RefHeader) (trustForwardHeader : Bool)
    (st : Store × RefHeader) : Store × RefHeader :=
  let xfp := (st.1.view reqHeader).Get XForwardedPort
  if xfp ≠ "" ∧ trustForwardHeader = true then refSet st XForwardedPort xfp
  else st

/-- The function `writeHeader` on maps of slices: `m` is the store and
`forwardReqHeader` the map `forwardReq.Header` before the call, `reqHeader` is
the map `req.Header`, which no statement writes, and `req` gives the other
fields of the request.  The result is the store and `forwardReq.Header` after
the call. -/
def writeHeaderRef (grow : Nat → Nat) (m : Store) (reqHeader : RefHeader) (req : Request)
    (forwardReqHeader : RefHeader) (trustForwardHeader : Bool)
    (allowedHeaders : List String) : Store × RefHeader :=
  let st := CopyHeadersRef grow m forwardReqHeader reqHeader
  let st := (st.1, RemoveHeadersRef st.2 hopHeaders)
  let st := filterForwardRequestHeadersRef grow st allowedHeaders
  let st := writeForwardedForRef reqHeader req trustForwardHeader st
  let st := writeTrustedRef reqHeader trustForwardHeader xForwardedMethod req.Method st
  let st := writeForwardedProtoRef reqHeader req trustForwardHeader st
  let st := writeForwardedPortRef reqHeader trustForwardHeader st
  let st := writeTrustedRef reqHeader trustForwardHeader XForwardedHost req.Host st
  writeTrustedRef reqHeader trustForwardHeader xForwardedURI req.URL.requestURI st

/-- Every slice of the map lies in the store: its array is allocated and has
at least `len` cells. -/
def RefHeader.validIn (h : RefHeader) (m : Store) : Prop :=
  ∀ e ∈ h, ∀ s, e.2 = some s → s.array < m.length ∧ s.len ≤ (m.getD s.array []).length

/-- A state of the slice model stands for the header map `p`: the store has
only grown from `m0`, the slices of the map lie in the store, and the map reads
as `p`. -/
def Tracks (m0 : Store) (st : Store × RefHeader) (p : Header) : Prop :=
  (∃ extra, st.1 = m0 ++ extra) ∧ st.2.validIn st.1 ∧ st.1.view st.2 = p

/-! ## Concrete inputs -/

/-- A pattern that matches the strings beginning with `sub`: the Go pattern
`^sub` for a `sub` of letters, digits and dashes. -/
def Regexp.startsWith (sub : String) : Regexp :=
  ⟨fun s => sub.data.isPrefixOf s.data⟩

/-- An inbound request over plain HTTP from 9.9.9.9. -/
def sampleRequest : Request :=
  { Header := [("Proxy-Authorization", ["Basic cHJveHk="]), ("X-Forwarded-For", ["1.2.3.4"]),
      ("X-User", ["mallory"])],
    RemoteAddr := "9.9.9.9:4711", Method := "GET", TLS := false, Host := "app.example",
    URL := ⟨"/a?b=1"⟩, RequestURI := "/a?b=1" }

/-- A request whose only header is an `X-Forwarded-Port` sent by the client. -/
def portRequest : Request :=
  { Header := [("X-Forwarded-Port", ["8080"])],
    RemoteAddr := "9.9.9.9:4711", Method := "GET", TLS := false, Host := "app.example",
    URL := ⟨"/"⟩, RequestURI := "/" }

/-- A request whose `x-user` header is stored under a key that is not in
canonical form, as a handler writing `req.Header["x-user"]` leaves it. -/
def lowerCaseRequest : Request :=
  { Header := [("x-user", ["mallory"])],
    RemoteAddr := "9.9.9.9:4711", Method := "GET", TLS := false, Host := "app.example",
    URL := ⟨"/"⟩, RequestURI := "/" }

/-- The middleware `sampleForwardAuth` with the response-header pattern `^x-`. -/
def lowerCaseForwardAuth : ForwardAuth :=
  { address := "http://auth.example/verify", authResponseHeaders := ["X-User"],
    authResponseHeadersRegex := some (Regexp.startsWith "x-"), trustForwardHeader := true,
    authRequestHeaders := [], runIfHeadersRegex := [] }

/-- A request that carries hop-by-hop headers. -/
def hopRequest : Request :=
  { Header := [("Connection", ["keep-alive"]), ("Keep-Alive", ["timeout=5"]),
      ("Te", ["trailers"]), ("X-User", ["bob"])],
    RemoteAddr := "9.9.9.9:4711", Method := "GET", TLS := false, Host := "app.example",
    URL := ⟨"/"⟩, RequestURI := "/" }

/-- An authentication response with the given status and `X-User: alice`. -/
def sampleResponse (status : Int) : Response :=
  { StatusCode := status, Header := [("X-User", ["alice"]), ("Connection", ["close"])],
    Body := .ok "denied" }

/-- An environment in which the address is valid, the call returns
`sampleResponse status` and every location parses to itself. -/
def sampleEnv (status : Int) : Env :=
  { NewRequest := fun _ => true,
    Do := fun _ _ => .ok (sampleResponse status),
    Parse := fun _ ref => .ok ref }

/-- A middleware that copies `X-User` from the response, with no gate. -/
def sampleForwardAuth : ForwardAuth :=
  { address := "http://auth.example/verify", authResponseHeaders := ["X-User"],
    authResponseHeadersRegex := none, trustForwardHeader := true, authRequestHeaders := [],
    runIfHeadersRegex := [] }

/-- The spec's request for the pattern `^X-Auth-`: it carries an
`X-Auth-Other` header the response does not have. -/
def authRequest : Request :=
  { Header := [("Accept", ["text/html"]), ("X-Auth-Other", ["guest"])],
    RemoteAddr := "9.9.9.9:4711", Method := "GET", TLS := true, Host := "app.example",
    URL := ⟨"/"⟩, RequestURI := "/" }

/-- A 200 response carrying `X-Auth-Role: admin`. -/
def authResponse : Response :=
  { StatusCode := 200, Header := [("X-Auth-Role", ["admin"])], Body := .ok "" }

/-- An environment whose authentication call returns `authResponse`. -/
def authEnv : Env :=
  { NewRequest := fun _ => true,
    Do := fun _ _ => .ok authResponse,
    Parse := fun _ ref => .ok ref }

/-- A middleware with the pattern `^X-Auth-` that also lists `X-Auth-Role`. -/
def authForwardAuth : ForwardAuth :=
  { address := "http://auth.example/verify", authResponseHeaders := ["X-Auth-Role"],
    authResponseHeadersRegex := some (Regexp.startsWith "X-Auth-"), trustForwardHeader := false,
    authRequestHeaders := [], runIfHeadersRegex := [] }

/-- A 302 response that redirects to the login page. -/
def redirectResponse : Response :=
  { StatusCode := 302,
    Header := [("Location", ["https://login.example/"]), ("Set-Cookie", ["s=1"]),
      ("Connection", ["close"])],
    Body := .ok "please log in" }

/-- An environment whose authentication call returns `redirectResponse`. -/
def redirectEnv : Env :=
  { NewRequest := fun _ => true,
    Do := fun _ _ => .ok redirectResponse,
    Parse := fun _ ref => .ok ref }

/-- An environment in which the configured address is not a valid URL. -/
def badAddressEnv : Env :=
  { NewRequest := fun _ => false,
    Do := fun _ _ => .error "unreachable",
    Parse := fun _ ref => .ok ref }

/-- A middleware with the pattern `^x-` and no listed names. -/
def patternForwardAuth : ForwardAuth :=
  { address := "http://auth.example/verify", authResponseHeaders := [],
    authResponseHeadersRegex := some (Regexp.startsWith "x-"), trustForwardHeader := false,
    authRequestHeaders := [], runIfHeadersRegex := [] }

/-- The backing arrays of the value lists of `sampleRequest`. -/
def sampleStore : Store := [["Basic cHJveHk="], ["1.2.3.4"], ["mallory"]]

/-- The header map of `sampleRequest` as slices of `sampleStore`. -/
def sampleRefHeader : RefHeader :=
  [("Proxy-Authorization", some ⟨0, 1, 1⟩), ("X-Forwarded-For", some ⟨1, 1, 1⟩),
    ("X-User", some ⟨2, 1, 1⟩)]

/-- A store with one array of four cells. -/
def sharedStore : Store := [["a", "b", "c", "d"]]

/-- The keys the deleting loop of lines 227-231 removes from `h`: the canonical
form of every key of `h` that the pattern matches. -/
def deletedBy (re : Regexp) (h : Header) (k : String) : Prop :=
  ∃ x, h.lookup x ≠ none ∧ re.MatchString x = true ∧ CanonicalHeaderKey x = k

/-! ## Canonical keys: idempotence -/

theorem isLower_iff (c : Char) : c.isLower = true ↔ 97 ≤ c.toNat ∧ c.toNat ≤ 122 := by
  simp only [Char.isLower, Bool.and_eq_true, decide_eq_true_eq, Char.toNat, UInt32.le_def,
    UInt32.toNat]
  rfl

theorem isUpper_iff (c : Char) : c.isUpper = true ↔ 65 ≤ c.toNat ∧ c.toNat ≤ 90 := by
  simp only [Char.isUpper, Bool.and_eq_true, decide_eq_true_eq, Char.toNat, UInt32.le_def,
    UInt32.toNat]
  rfl

theorem canonicalByteOk_lower (upper : Bool) (n : Nat) (h1 : 97 ≤ n) (h2 : n ≤ 122) :
    canonicalByteOk upper (Char.ofNat n) := by
  unfold canonicalByteOk
  interval_cases n <;> cases upper <;> decide

theorem canonicalByteOk_upper (upper : Bool) (n : Nat) (h1 : 65 ≤ n) (h2 : n ≤ 90) :
    canonicalByteOk upper (Char.ofNat n) := by
  unfold canonicalByteOk
  interval_cases n <;> cases upper <;> decide

theorem canonicalByte_ok (upper : Bool) (c : Char) : canonicalByteOk upper c := by
  by_cases hl : c.isLower = true
  · have h := canonicalByteOk_lower upper c.toNat ((isLower_iff c).1 hl).1 ((isLower_iff c).1 hl).2
    rwa [Char.ofNat_toNat] at h
  · by_cases hu : c.isUpper = true
    · have h := canonicalByteOk_upper upper c.toNat ((isUpper_iff c).1 hu).1
        ((isUpper_iff c).1 hu).2
      rwa [Char.ofNat_toNat] at h
    · have hc : canonicalByte upper c = c := by simp [canonicalByte, hl, hu]
      simp [canonicalByteOk, hc]

theorem canonicalLoop_all_valid (upper : Bool) (cs : List Char) :
    (canonicalLoop upper cs).all validHeaderFieldByte = cs.all validHeaderFieldByte := by
  induction cs generalizing upper with
  | nil => rfl
  | cons c cs ih =>
    simp only [canonicalLoop, List.all_cons, ih, (canonicalByte_ok upper c).1]

theorem canonicalLoop_idem (upper : Bool) (cs : List Char) :
    canonicalLoop upper (canonicalLoop upper cs) = canonicalLoop upper cs := by
  induction cs generalizing upper with
  | nil => rfl
  | cons c cs ih =>
    simp only [canonicalLoop, (canonicalByte_ok upper c).2, ih]

/-- The function `http.CanonicalHeaderKey` is idempotent. -/
theorem CanonicalHeaderKey_idem (s : String) :
    CanonicalHeaderKey (CanonicalHeaderKey s) = CanonicalHeaderKey s := by
  unfold CanonicalHeaderKey
  by_cases h : s.data.all validHeaderFieldByte = true
  · simp only [h, if_true, canonicalLoop_all_valid, canonicalLoop_idem]
  · simp only [h, if_false]
    simp [h]

/-! ## Header maps: reads after writes -/

theorem lookup_delete (h : Header) (k k' : String) :
    (h.delete k).lookup k' = if k' = k then none else h.lookup k' := by
  induction h with
  | nil => simp [Header.delete, Header.lookup]
  | cons e rest ih =>
    obtain ⟨a, vs⟩ := e
    by_cases hak : a = k
    · simp only [Header.delete, hak, if_true, ih, Header.lookup]
      by_cases hk : k' = k
      · simp [hk]
      · have hk2 : ¬ k = k' := fun e => hk e.symm
        simp [hk, hk2]
    · simp only [Header.delete, hak, if_false, Header.lookup, ih]
      by_cases hk : k' = k
      · have h3 : ¬ a = k' := by rw [hk]; exact hak
        simp [hk, h3]
        intro e; exact absurd e hak
      · simp [hk]

theorem lookup_assign (h : Header) (k k' : String) (vs : List String) :
    (h.assign k vs).lookup k' = if k' = k then some vs else h.lookup k' := by
  induction h with
  | nil =>
    by_cases hk : k' = k
    · simp [Header.assign, Header.lookup, hk]
    · have hk2 : ¬ k = k' := fun e => hk e.symm
      simp [Header.assign, Header.lookup, hk, hk2]
  | cons e rest ih =>
    obtain ⟨a, ws⟩ := e
    by_cases hak : a = k
    · simp only [Header.assign, hak, if_true, Header.lookup, lookup_delete]
      by_cases hk : k' = k
      · simp [hk]
      · have hk2 : ¬ k = k' := fun e => hk e.symm
        simp [hk, hk2]
    · simp only [Header.assign, hak, if_false, Header.lookup, ih]
      by_cases hk : k' = k
      · have h3 : ¬ a = k' := by rw [hk]; exact hak
        simp [hk, h3]
        intro e; exact absurd e hak
      · simp [hk]

theorem lookup_Set (h : Header) (key value k' : String) :
    (h.Set key value).lookup k' =
      if k' = CanonicalHeaderKey key then some [value] else h.lookup k' := by
  simp only [Header.Set, lookup_assign]

theorem lookup_Del (h : Header) (key k' : String) :
    (h.Del key).lookup k' = if k' = CanonicalHeaderKey key then none else h.lookup k' := by
  simp only [Header.Del, lookup_delete]

theorem mem_keys_iff (h : Header) (k : String) : k ∈ h.keys ↔ h.lookup k ≠ none := by
  induction h with
  | nil => simp [Header.keys, Header.lookup]
  | cons e rest ih =>
    obtain ⟨a, ws⟩ := e
    simp only [Header.keys, List.map_cons, List.mem_cons] at ih ⊢
    by_cases hak : a = k
    · simp [Header.lookup, hak]
    · have hk2 : ¬ k = a := fun e => hak e.symm
      simp only [Header.lookup, hak, hk2, if_false, false_or]
      exact ih

/-- In a map the keys are distinct: a pair of the list is what the key reads. -/
theorem lookup_of_mem (h : Header) (hnd : h.keys.Nodup) (k : String) (vs : List String)
    (hm : (k, vs) ∈ h) : h.lookup k = some vs := by
  induction h with
  | nil => simp at hm
  | cons e rest ih =>
    obtain ⟨a, ws⟩ := e
    simp only [Header.keys, List.map_cons, List.nodup_cons] at hnd
    rcases List.mem_cons.1 hm with heq | hin
    · injection heq with h1 h2
      subst h1; subst h2
      simp [Header.lookup]
    · have hne : ¬ a = k := by
        intro e; subst e
        exact hnd.1 (List.mem_map.2 ⟨(a, vs), hin, rfl⟩)
      simp only [Header.lookup, hne, if_false]
      exact ih hnd.2 hin

theorem index_eq_of_lookup (h g : Header) (k : String) (e : h.lookup k = g.lookup k) :
    h.index k = g.index k := by
  simp only [Header.index, e]

/-! ## The loops over header maps -/

theorem lookup_RemoveHeaders (names : List String) (h : Header) (k : String) :
    (RemoveHeaders h names).lookup k =
      if k ∈ names.map CanonicalHeaderKey then none else h.lookup k := by
  induction names generalizing h with
  | nil => simp [RemoveHeaders]
  | cons n rest ih =>
    have ih2 := ih (h.Del n)
    simp only [RemoveHeaders, List.foldl_cons] at ih2 ⊢
    rw [ih2, lookup_Del]
    by_cases h1 : k = CanonicalHeaderKey n
    · simp [h1]
    · simp [h1]

theorem lookup_CopyHeaders (src : Header) (hnd : src.keys.Nodup) (dst : Header) (k : String) :
    (CopyHeaders dst src).lookup k =
      match src.lookup k with
      | some vv => some (dst.index k ++ vv)
      | none => dst.lookup k := by
  induction src generalizing dst with
  | nil => simp [CopyHeaders, Header.lookup]
  | cons e rest ih =>
    obtain ⟨a, ws⟩ := e
    simp only [Header.keys, List.map_cons, List.nodup_cons] at hnd
    have ih2 := ih hnd.2 (dst.assign a (dst.index a ++ ws))
    simp only [CopyHeaders, List.foldl_cons] at ih2 ⊢
    rw [ih2]
    by_cases hak : a = k
    · subst hak
      have hn : Header.lookup rest a = none := by
        by_contra hc
        exact hnd.1 ((mem_keys_iff rest a).2 hc)
      simp [hn, Header.lookup, lookup_assign]
    · have hk2 : ¬ k = a := fun e => hak e.symm
      simp only [Header.lookup, hak, if_false, Header.index, lookup_assign, hk2]

theorem lookup_filter_fold (h : Header) (allowed : List String) (acc : Header) (k : String) :
    (allowed.foldl (fun filteredHeaders headerName =>
      let values := h.Values headerName
      if values.length > 0 then
        filteredHeaders.assign (CanonicalHeaderKey headerName) values
      else filteredHeaders) acc).lookup k =
      if k ∈ allowed.map CanonicalHeaderKey ∧ (h.index k).length > 0 then some (h.index k)
      else acc.lookup k := by
  induction allowed generalizing acc with
  | nil => simp
  | cons n rest ih =>
    simp only [List.foldl_cons, List.map_cons, List.mem_cons]
    rw [ih]
    by_cases h1 : k ∈ rest.map CanonicalHeaderKey ∧ (h.index k).length > 0
    · simp [h1]
    · by_cases h2 : k = CanonicalHeaderKey n
      · subst h2
        by_cases h3 : (h.index (CanonicalHeaderKey n)).length > 0
        · simp [h1, h3, Header.Values, lookup_assign]
        · simp [h3, Header.Values]
      · have h4 : ¬ ((k = CanonicalHeaderKey n ∨ k ∈ rest.map CanonicalHeaderKey) ∧
            (h.index k).length > 0) := by
          rintro ⟨hk | hk, hl⟩
          · exact h2 hk
          · exact h1 ⟨hk, hl⟩
        simp only [h1, h4, if_false]
        by_cases h3 : (h.Values n).length > 0
        · simp [h3, lookup_assign, h2]
        · simp [h3]

theorem lookup_filterForwardRequestHeaders (h : Header) (allowed : List String) (k : String) :
    (filterForwardRequestHeaders h allowed).lookup k =
      if allowed = [] then h.lookup k
      else if k ∈ allowed.map CanonicalHeaderKey ∧ (h.index k).length > 0 then
        some (h.index k)
      else none := by
  unfold filterForwardRequestHeaders
  by_cases h0 : allowed = []
  · simp [h0]
  · have h1 : ¬ allowed.length = 0 := by simpa using h0
    simp only [h1, h0, if_false]
    rw [lookup_filter_fold]
    simp [Header.lookup]

/-! ## The steps of `writeHeader` -/

theorem lookup_writeForwardedFor_ne (req : Request) (t : Bool) (h : Header) (k : String)
    (hk : k ≠ XForwardedFor) :
    (writeForwardedFor req t h).lookup k = h.lookup k := by
  have hc : CanonicalHeaderKey XForwardedFor = XForwardedFor := by decide
  unfold writeForwardedFor
  cases SplitHostPort req.RemoteAddr with
  | none => rfl
  | some p => simp [lookup_Set, hc, hk]

theorem lookup_writeTrusted (req : Request) (t : Bool) (name actual : String) (h : Header)
    (k : String) :
    (writeTrusted req t name actual h).lookup k =
      if k = CanonicalHeaderKey name then
        (if req.Header.Get name ≠ "" ∧ t = true then some [req.Header.Get name]
         else if actual ≠ "" then some [actual] else none)
      else h.lookup k := by
  unfold writeTrusted
  by_cases hk : k = CanonicalHeaderKey name
  · simp only [hk, if_true]
    split_ifs <;> simp [lookup_Set, lookup_Del]
  · simp only [hk, if_false]
    split_ifs <;> simp [lookup_Set, lookup_Del, hk]

theorem lookup_writeForwardedProto (req : Request) (t : Bool) (h : Header) (k : String) :
    (writeForwardedProto req t h).lookup k =
      if k = XForwardedProto then
        (if req.Header.Get XForwardedProto ≠ "" ∧ t = true then
          some [req.Header.Get XForwardedProto]
         else if req.TLS = true then some ["https"] else some ["http"])
      else h.lookup k := by
  have hc : CanonicalHeaderKey XForwardedProto = XForwardedProto := by decide
  unfold writeForwardedProto
  by_cases hk : k = XForwardedProto
  · simp only [hk, if_true]
    split_ifs <;> simp [lookup_Set, hc]
  · simp only [hk, if_false]
    split_ifs <;> simp [lookup_Set, hc, hk]

theorem lookup_writeForwardedPort (req : Request) (t : Bool) (h : Header) (k : String) :
    (writeForwardedPort req t h).lookup k =
      if k = XForwardedPort ∧ req.Header.Get XForwardedPort ≠ "" ∧ t = true then
        some [req.Header.Get XForwardedPort]
      else h.lookup k := by
  have hc : CanonicalHeaderKey XForwardedPort = XForwardedPort := by decide
  unfold writeForwardedPort
  by_cases hk : k = XForwardedPort
  · simp only [hk, true_and]
    split_ifs <;> simp [lookup_Set, hc]
  · simp only [hk, false_and, if_false]
    split_ifs <;> simp [lookup_Set, hc, hk]

theorem lookup_writeForwardedPort_ne (req : Request) (t : Bool) (h : Header) (k : String)
    (hk : k ≠ XForwardedPort) :
    (writeForwardedPort req t h).lookup k = h.lookup k := by
  rw [lookup_writeForwardedPort, if_neg (fun h => hk h.1)]

/-! ## The gate -/

theorem runHeadersRegexLoop_iff (headers : Header) (m : List (String × Regexp)) :
    runHeadersRegexLoop headers m = true ↔
      ∀ e ∈ m, headers.Get e.1 ≠ "" ∧ e.2.MatchString (headers.Get e.1) = true := by
  induction m with
  | nil => simp [runHeadersRegexLoop]
  | cons e rest ih =>
    obtain ⟨hKey, regex⟩ := e
    simp only [runHeadersRegexLoop, List.mem_cons, forall_eq_or_imp]
    by_cases h1 : headers.Get hKey = ""
    · simp [h1]
    · cases h2 : regex.MatchString (headers.Get hKey)
      · simp [h1, h2]
      · simp [h1, h2, ih]

theorem runHeadersRegex_iff (headers : Header) (m : List (String × Regexp)) :
    runHeadersRegex headers m = true ↔
      ∀ e ∈ m, headers.Get e.1 ≠ "" ∧ e.2.MatchString (headers.Get e.1) = true := by
  unfold runHeadersRegex
  by_cases h0 : m.length = 0
  · have hm : m = [] := List.length_eq_zero.1 h0
    simp [hm]
  · simp only [h0, if_false]
    exact runHeadersRegexLoop_iff headers m

/-- C2: `runHeadersRegex headers m` is true exactly when every entry `(name,
pattern)` of `m` finds a non-empty first value of header `name` that the
pattern matches; it is true for the empty map; and it is the same for every
order in which the entries of `m` are visited. -/
theorem runHeadersRegex_spec (headers : Header) (m : List (String × Regexp)) :
    (runHeadersRegex headers m = true ↔
      ∀ e ∈ m, headers.Get e.1 ≠ "" ∧ e.2.MatchString (headers.Get e.1) = true) ∧
    runHeadersRegex headers [] = true ∧
    ∀ m' : List (String × Regexp), m'.Perm m →
      runHeadersRegex headers m' = runHeadersRegex headers m := by
  refine ⟨runHeadersRegex_iff headers m, rfl, ?_⟩
  intro m' hp
  have h1 := runHeadersRegex_iff headers m
  have h2 := runHeadersRegex_iff headers m'
  have h3 : runHeadersRegex headers m' = true ↔ runHeadersRegex headers m = true := by
    rw [h1, h2]
    constructor
    · intro h e he
      exact h e (hp.symm.subset he)
    · intro h e he
      exact h e (hp.subset he)
  cases ha : runHeadersRegex headers m' <;> cases hb : runHeadersRegex headers m <;>
    simp_all

/-! ## `ServeHTTP`: which branch runs -/

/-- C1: for a gated request whose authentication call and body read succeed,
the next handler is invoked if and only if the response status is at least 200
and below 300. -/
theorem ServeHTTP_next_iff_2xx (fa : ForwardAuth) (env : Env) (rwHeader : Header)
    (req : Request) (resp : Response) (body : String)
    (hgate : runHeadersRegex req.Header fa.runIfHeadersRegex = true)
    (hnew : env.NewRequest fa.address = true)
    (hdo : env.Do fa.address (writeHeader req [] fa.trustForwardHeader fa.authRequestHeaders)
      = .ok resp)
    (hbody : resp.Body = .ok body) :
    nextCalls (ServeHTTP fa env rwHeader req).events ≠ [] ↔
      200 ≤ resp.StatusCode ∧ resp.StatusCode < 300 := by
  unfold ServeHTTP
  simp only [hgate, hnew, hdo, hbody, Bool.not_true, Bool.false_eq_true, if_false]
  by_cases hs : resp.StatusCode < 200 ∨ resp.StatusCode ≥ 300
  · have hn : ¬ (200 ≤ resp.StatusCode ∧ resp.StatusCode < 300) := by omega
    simp only [hs, if_true, hn, iff_false, not_not]
    cases resp.Location env fa.address with
    | error err =>
      dsimp only
      split_ifs <;> rfl
    | ok u => rfl
  · have hy : 200 ≤ resp.StatusCode ∧ resp.StatusCode < 300 := by omega
    simp [hs, hy, nextCalls]

/-- C1 at a concrete input: status 200 reaches the next handler. -/
theorem ServeHTTP_next_iff_2xx_witness :
    nextCalls (ServeHTTP sampleForwardAuth (sampleEnv 200) [] sampleRequest).events ≠ [] ↔
      200 ≤ (sampleResponse 200).StatusCode ∧ (sampleResponse 200).StatusCode < 300 :=
  ServeHTTP_next_iff_2xx sampleForwardAuth (sampleEnv 200) [] sampleRequest (sampleResponse 200)
    "denied" (by decide) rfl rfl rfl

/-- C3: when the gating map has an entry whose header is missing from the
request (its first value is empty) or does not match the entry's pattern,
`ServeHTTP` makes no outbound call and writes nothing: all it does is invoke
the next handler once, with the response writer and the request as they came
in. -/
theorem ServeHTTP_gate_skip (fa : ForwardAuth) (env : Env) (rwHeader : Header)
    (req : Request) (e : String × Regexp) (he : e ∈ fa.runIfHeadersRegex)
    (hfail : req.Header.Get e.1 = "" ∨ e.2.MatchString (req.Header.Get e.1) = false) :
    ServeHTTP fa env rwHeader req = ⟨rwHeader, [.next rwHeader req]⟩ ∧
      authCalls (ServeHTTP fa env rwHeader req).events = [] ∧
      nextCalls (ServeHTTP fa env rwHeader req).events = [req] := by
  have hg : runHeadersRegex req.Header fa.runIfHeadersRegex = false := by
    cases hc : runHeadersRegex req.Header fa.runIfHeadersRegex with
    | false => rfl
    | true =>
      have h := (runHeadersRegex_iff req.Header fa.runIfHeadersRegex).1 hc e he
      rcases hfail with h1 | h1
      · exact absurd h1 h.1
      · rw [h.2] at h1; exact absurd h1 (by decide)
  have hs : ServeHTTP fa env rwHeader req = ⟨rwHeader, [.next rwHeader req]⟩ := by
    unfold ServeHTTP
    simp [hg]
  rw [hs]
  exact ⟨rfl, rfl, rfl⟩

/-- C3 at a concrete input: the gate asks for an `X-Api` header starting with
`v2`, which the request does not carry. -/
theorem ServeHTTP_gate_skip_witness :
    ServeHTTP { sampleForwardAuth with runIfHeadersRegex := [("X-Api", Regexp.startsWith "v2")] }
        (sampleEnv 200) [] sampleRequest = ⟨[], [.next [] sampleRequest]⟩ ∧
      authCalls (ServeHTTP
        { sampleForwardAuth with runIfHeadersRegex := [("X-Api", Regexp.startsWith "v2")] }
        (sampleEnv 200) [] sampleRequest).events = [] ∧
      nextCalls (ServeHTTP
        { sampleForwardAuth with runIfHeadersRegex := [("X-Api", Regexp.startsWith "v2")] }
        (sampleEnv 200) [] sampleRequest).events = [sampleRequest] :=
  ServeHTTP_gate_skip _ (sampleEnv 200) [] sampleRequest ("X-Api", Regexp.startsWith "v2")
    (List.mem_singleton.2 rfl) (Or.inl (by decide))

/-! ## `writeHeader` -/

/-- The header map `writeHeader` has built when it turns to the
`X-Forwarded-*` headers (lines 245-248). -/
theorem lookup_writeHeader (req : Request) (fwd : Header) (t : Bool) (allowed : List String)
    (k : String) :
    (writeHeader req fwd t allowed).lookup k =
      (writeTrusted req t xForwardedURI req.URL.requestURI
        (writeTrusted req t XForwardedHost req.Host
          (writeForwardedPort req t
            (writeForwardedProto req t
              (writeTrusted req t xForwardedMethod req.Method
                (writeForwardedFor req t
                  (filterForwardRequestHeaders
                    (RemoveHeaders (CopyHeaders fwd req.Header) hopHeaders) allowed))))))).lookup
        k := rfl

theorem canonical_xForwardedURI : CanonicalHeaderKey xForwardedURI = xForwardedURI := by
  decide

theorem canonical_xForwardedMethod :
    CanonicalHeaderKey xForwardedMethod = xForwardedMethod := by decide

theorem canonical_XForwardedHost : CanonicalHeaderKey XForwardedHost = XForwardedHost := by
  decide

/-- A key that is none of the six `X-Forwarded-*` names reads in the result of
`writeHeader` what it reads after the copy, the removal of the hop-by-hop
headers and the filter. -/
theorem lookup_writeHeader_other (req : Request) (fwd : Header) (t : Bool)
    (allowed : List String) (k : String)
    (hk : k ∉ [XForwardedFor, xForwardedMethod, XForwardedProto, XForwardedPort,
      XForwardedHost, xForwardedURI]) :
    (writeHeader req fwd t allowed).lookup k =
      (filterForwardRequestHeaders
        (RemoveHeaders (CopyHeaders fwd req.Header) hopHeaders) allowed).lookup k := by
  simp only [List.mem_cons, List.mem_singleton, not_or, List.not_mem_nil, not_false_eq_true,
    and_true] at hk
  obtain ⟨h1, h2, h3, h4, h5, h6⟩ := hk
  rw [lookup_writeHeader, lookup_writeTrusted, canonical_xForwardedURI, if_neg h6,
    lookup_writeTrusted, canonical_XForwardedHost, if_neg h5, lookup_writeForwardedPort_ne _ _ _ _ h4, lookup_writeForwardedProto, if_neg h3, lookup_writeTrusted,
    canonical_xForwardedMethod, if_neg h2, lookup_writeForwardedFor_ne _ _ _ _ h1]

/-- C4 as stated fails: with the allow-list `["X-User"]` the inbound
`Proxy-Authorization` is not in the outbound header set. -/
theorem writeHeader_ProxyAuthorization_filtered :
    sampleRequest.Header.lookup ProxyAuthorization = some ["Basic cHJveHk="] ∧
      (writeHeader sampleRequest [] true ["X-User"]).lookup ProxyAuthorization = none := by
  decide

/-- C4, amended: when `authRequestHeaders` is empty or holds a name whose
canonical form is `Proxy-Authorization`, then for every `trustForwardHeader`
and every inbound request carrying `Proxy-Authorization` with at least one
value, the outbound header set built by `writeHeader` holds
`Proxy-Authorization` with the inbound values. -/
theorem writeHeader_ProxyAuthorization (req : Request) (t : Bool) (allowed : List String)
    (vs : List String) (hnd : req.Header.keys.Nodup)
    (hin : req.Header.lookup ProxyAuthorization = some vs) (hne : vs ≠ [])
    (hallow : allowed = [] ∨ ProxyAuthorization ∈ allowed.map CanonicalHeaderKey) :
    (writeHeader req [] t allowed).lookup ProxyAuthorization = some vs := by
  have hbase : (RemoveHeaders (CopyHeaders [] req.Header) hopHeaders).lookup ProxyAuthorization
      = some vs := by
    rw [lookup_RemoveHeaders, if_neg (by decide), lookup_CopyHeaders _ hnd, hin]
    simp [Header.index, Header.lookup]
  rw [lookup_writeHeader_other _ _ _ _ _ (by decide), lookup_filterForwardRequestHeaders]
  have hidx : (RemoveHeaders (CopyHeaders [] req.Header) hopHeaders).index ProxyAuthorization
      = vs := by simp [Header.index, hbase]
  have hlen : vs.length > 0 := List.length_pos.2 hne
  by_cases h0 : allowed = []
  · simp [h0, hbase]
  · rcases hallow with h | h
    · exact absurd h h0
    · simp [h0, h, hidx, hlen]

/-- C4, amended, at a concrete input: the allow-list names the header in lower
case. -/
theorem writeHeader_ProxyAuthorization_witness :
    (writeHeader sampleRequest [] false ["proxy-authorization"]).lookup ProxyAuthorization
      = some ["Basic cHJveHk="] :=
  writeHeader_ProxyAuthorization sampleRequest false ["proxy-authorization"] ["Basic cHJveHk="]
    (by decide) (by decide) (by decide) (Or.inr (by decide))

/-- C5 fails on the code: with `trustForwardHeader` false and no allow-list
the `X-Forwarded-Port` the client sent is in the outbound header set. -/
theorem writeHeader_untrusted_port_kept :
    (writeHeader portRequest [] false []).lookup XForwardedPort = some ["8080"] := by
  decide

/-- C6: none of `Connection`, `Keep-Alive`, `Te`, `Trailers`,
`Transfer-Encoding` and `Upgrade` is a key of the outbound header set built by
`writeHeader`, for every request, trust flag and allow-list; and none of them
is a key of the response writer's header set after the branch of `ServeHTTP`
that relays a response whose status is not 2xx, whatever the header set held
before. -/
theorem hopHeaders_absent (req : Request) (t : Bool) (allowed : List String) :
    (∀ k ∈ ["Connection", "Keep-Alive", "Te", "Trailers", "Transfer-Encoding", "Upgrade"],
      k ∉ (writeHeader req [] t allowed).keys) ∧
    ∀ (fa : ForwardAuth) (env : Env) (rwHeader : Header) (resp : Response) (body : String),
      runHeadersRegex req.Header fa.runIfHeadersRegex = true →
      env.NewRequest fa.address = true →
      env.Do fa.address (writeHeader req [] fa.trustForwardHeader fa.authRequestHeaders)
        = .ok resp →
      resp.Body = .ok body →
      (resp.StatusCode < 200 ∨ resp.StatusCode ≥ 300) →
      ∀ k ∈ ["Connection", "Keep-Alive", "Te", "Trailers", "Transfer-Encoding", "Upgrade"],
        k ∉ (ServeHTTP fa env rwHeader req).rwHeader.keys := by
  have hnames : ["Connection", "Keep-Alive", "Te", "Trailers", "Transfer-Encoding", "Upgrade"]
      = hopHeaders := by decide
  have hcanon : hopHeaders.map CanonicalHeaderKey = hopHeaders := by decide
  have hrem : ∀ (h : Header) (k : String), k ∈ hopHeaders →
      (RemoveHeaders h hopHeaders).lookup k = none := by
    intro h k hk
    rw [lookup_RemoveHeaders, hcanon, if_pos hk]
  constructor
  · intro k hk
    rw [hnames] at hk
    rw [mem_keys_iff, not_not]
    have hx : k ∉ [XForwardedFor, xForwardedMethod, XForwardedProto, XForwardedPort,
        XForwardedHost, xForwardedURI] := by
      revert k; decide
    rw [lookup_writeHeader_other _ _ _ _ _ hx, lookup_filterForwardRequestHeaders]
    have hi : (RemoveHeaders (CopyHeaders [] req.Header) hopHeaders).index k = [] := by
      simp [Header.index, hrem _ k hk]
    simp [hrem _ k hk, hi]
  · intro fa env rwHeader resp body hgate hnew hdo hbody hs k hk
    rw [hnames] at hk
    rw [mem_keys_iff, not_not]
    have hloc : k ≠ CanonicalHeaderKey "Location" := by
      revert k; decide
    unfold ServeHTTP
    simp only [hgate, hnew, hdo, hbody, hs, Bool.not_true, Bool.false_eq_true, if_false, if_true]
    cases resp.Location env fa.address with
    | error err =>
      dsimp only
      split_ifs <;> exact hrem _ k hk
    | ok u =>
      dsimp only
      split_ifs
      · rw [lookup_Set, if_neg hloc]
        exact hrem _ k hk
      · exact hrem _ k hk

/-- C6 at a concrete input: the request `hopRequest` carries `Connection`,
`Keep-Alive` and `Te`, none of which is a key of the outbound header set; a 401
response carrying `Connection: close` is relayed to a response writer that
already held `Upgrade`, and neither is a key afterwards. -/
theorem hopHeaders_absent_witness :
    hopRequest.Header.lookup "Connection" = some ["keep-alive"] ∧
    "Connection" ∉ (writeHeader hopRequest [] true []).keys ∧
    "Keep-Alive" ∉ (writeHeader hopRequest [] true []).keys ∧
    "Te" ∉ (writeHeader hopRequest [] true ["te", "X-User"]).keys ∧
    (sampleResponse 401).Header.lookup "Connection" = some ["close"] ∧
    "Connection" ∉ (ServeHTTP sampleForwardAuth (sampleEnv 401) [("Upgrade", ["h2c"])]
      sampleRequest).rwHeader.keys ∧
    "Upgrade" ∉ (ServeHTTP sampleForwardAuth (sampleEnv 401) [("Upgrade", ["h2c"])]
      sampleRequest).rwHeader.keys :=
  have h := (hopHeaders_absent sampleRequest true []).2 sampleForwardAuth (sampleEnv 401)
    [("Upgrade", ["h2c"])] (sampleResponse 401) "denied" (by decide) rfl rfl rfl (by decide)
  ⟨by decide, (hopHeaders_absent hopRequest true []).1 "Connection" (by decide),
    (hopHeaders_absent hopRequest true []).1 "Keep-Alive" (by decide),
    (hopHeaders_absent hopRequest true ["te", "X-User"]).1 "Te" (by decide),
    by decide, h "Connection" (by decide), h "Upgrade" (by decide)⟩

/-- C7: with `trustForwardHeader` false the outbound request has exactly one
`X-Forwarded-Proto` value, `https` when the inbound connection is TLS and
`http` otherwise, whatever the inbound headers and the allow-list are. -/
theorem writeHeader_untrusted_proto (req : Request) (fwd : Header) (allowed : List String) :
    (writeHeader req fwd false allowed).lookup XForwardedProto =
      some [if req.TLS = true then "https" else "http"] := by
  rw [lookup_writeHeader, lookup_writeTrusted, canonical_xForwardedURI, if_neg (by decide),
    lookup_writeTrusted, canonical_XForwardedHost, if_neg (by decide),
    lookup_writeForwardedPort_ne _ _ _ _ (by decide), lookup_writeForwardedProto]
  cases req.TLS <;> simp

/-- C8: when the remote address splits into `ip` and a port, the outbound
request has exactly one `X-Forwarded-For` value: with `trustForwardHeader` true
and an inbound `X-Forwarded-For` entry of values `vs` it is `vs` joined with
", " followed by ", " and `ip`; with `trustForwardHeader` false, or without
such an entry, it is `ip`. -/
theorem writeHeader_forwardedFor (req : Request) (fwd : Header) (t : Bool)
    (allowed : List String) (ip port : String)
    (hsplit : SplitHostPort req.RemoteAddr = some (ip, port)) :
    (∀ vs, t = true → req.Header.lookup XForwardedFor = some vs →
      (writeHeader req fwd t allowed).lookup XForwardedFor =
        some [String.intercalate ", " vs ++ ", " ++ ip]) ∧
    (t = false ∨ req.Header.lookup XForwardedFor = none →
      (writeHeader req fwd t allowed).lookup XForwardedFor = some [ip]) := by
  have hc : CanonicalHeaderKey XForwardedFor = XForwardedFor := by decide
  have hstep : (writeHeader req fwd t allowed).lookup XForwardedFor =
      (writeForwardedFor req t (filterForwardRequestHeaders
        (RemoveHeaders (CopyHeaders fwd req.Header) hopHeaders) allowed)).lookup
        XForwardedFor := by
    rw [lookup_writeHeader, lookup_writeTrusted, canonical_xForwardedURI, if_neg (by decide),
      lookup_writeTrusted, canonical_XForwardedHost, if_neg (by decide),
      lookup_writeForwardedPort_ne _ _ _ _ (by decide), lookup_writeForwardedProto,
      if_neg (by decide), lookup_writeTrusted, canonical_xForwardedMethod, if_neg (by decide)]
  rw [hstep]
  unfold writeForwardedFor
  simp only [hsplit, lookup_Set, hc, if_true]
  constructor
  · intro vs ht hl
    simp [ht, hl]
  · rintro (ht | hl)
    · simp [ht]
    · cases t <;> simp [hl]

/-- C8 at the input of the specification: inbound `X-Forwarded-For` is
`1.2.3.4`, the remote address is 9.9.9.9, the header is trusted. -/
theorem writeHeader_forwardedFor_witness :
    (writeHeader sampleRequest [] true []).lookup XForwardedFor = some ["1.2.3.4, 9.9.9.9"] :=
  (writeHeader_forwardedFor sampleRequest [] true [] "9.9.9.9" "4711" (by decide)).1
    ["1.2.3.4"] rfl (by decide)

/-- C9: after `writeHeader` each of `X-Forwarded-Method`, `X-Forwarded-Host`
and `X-Forwarded-Uri` holds exactly the inbound first value when it is
non-empty and `trustForwardHeader` is true, else exactly the request's method,
host or request URI when that is non-empty, else the header is absent; so with
`trustForwardHeader` false the three are the same for two requests that differ
in their headers only. -/
theorem writeHeader_trust_or_recompute (req : Request) (fwd : Header) (t : Bool)
    (allowed : List String) :
    ((writeHeader req fwd t allowed).lookup xForwardedMethod =
      if req.Header.Get xForwardedMethod ≠ "" ∧ t = true then
        some [req.Header.Get xForwardedMethod]
      else if req.Method ≠ "" then some [req.Method] else none) ∧
    ((writeHeader req fwd t allowed).lookup XForwardedHost =
      if req.Header.Get XForwardedHost ≠ "" ∧ t = true then
        some [req.Header.Get XForwardedHost]
      else if req.Host ≠ "" then some [req.Host] else none) ∧
    ((writeHeader req fwd t allowed).lookup xForwardedURI =
      if req.Header.Get xForwardedURI ≠ "" ∧ t = true then
        some [req.Header.Get xForwardedURI]
      else if req.URL.requestURI ≠ "" then some [req.URL.requestURI] else none) ∧
    ∀ (headers : Header) (fwd' : Header) (allowed' : List String),
      ∀ k ∈ [xForwardedMethod, XForwardedHost, xForwardedURI],
        (writeHeader { req with Header := headers } fwd' false allowed').lookup k =
          (writeHeader req fwd false allowed).lookup k := by
  have hm : ∀ (r : Request) (f : Header) (b : Bool) (a : List String),
      (writeHeader r f b a).lookup xForwardedMethod =
        if r.Header.Get xForwardedMethod ≠ "" ∧ b = true then
          some [r.Header.Get xForwardedMethod]
        else if r.Method ≠ "" then some [r.Method] else none := by
    intro r f b a
    rw [lookup_writeHeader, lookup_writeTrusted, canonical_xForwardedURI, if_neg (by decide),
      lookup_writeTrusted, canonical_XForwardedHost, if_neg (by decide),
      lookup_writeForwardedPort_ne _ _ _ _ (by decide), lookup_writeForwardedProto,
      if_neg (by decide), lookup_writeTrusted, canonical_xForwardedMethod, if_pos rfl]
  have hh : ∀ (r : Request) (f : Header) (b : Bool) (a : List String),
      (writeHeader r f b a).lookup XForwardedHost =
        if r.Header.Get XForwardedHost ≠ "" ∧ b = true then
          some [r.Header.Get XForwardedHost]
        else if r.Host ≠ "" then some [r.Host] else none := by
    intro r f b a
    rw [lookup_writeHeader, lookup_writeTrusted, canonical_xForwardedURI, if_neg (by decide),
      lookup_writeTrusted, canonical_XForwardedHost, if_pos rfl]
  have hu : ∀ (r : Request) (f : Header) (b : Bool) (a : List String),
      (writeHeader r f b a).lookup xForwardedURI =
        if r.Header.Get xForwardedURI ≠ "" ∧ b = true then
          some [r.Header.Get xForwardedURI]
        else if r.URL.requestURI ≠ "" then some [r.URL.requestURI] else none := by
    intro r f b a
    rw [lookup_writeHeader, lookup_writeTrusted, canonical_xForwardedURI, if_pos rfl]
  refine ⟨hm req fwd t allowed, hh req fwd t allowed, hu req fwd t allowed, ?_⟩
  intro headers fwd' allowed' k hk
  simp only [List.mem_cons, List.mem_singleton, List.not_mem_nil, or_false] at hk
  rcases hk with rfl | rfl | rfl
  · rw [hm, hm]; simp
  · rw [hh, hh]; simp
  · rw [hu, hu]; simp

/-! ## The merge of a 2xx response -/

theorem lookup_mergeListed (resp : Header) (names : List String) (h : Header) (k : String) :
    (mergeListed resp names h).lookup k =
      if k ∈ names.map CanonicalHeaderKey then
        (if (resp.index k).length > 0 then some (resp.index k) else none)
      else h.lookup k := by
  induction names generalizing h with
  | nil => simp [mergeListed]
  | cons n rest ih =>
    simp only [mergeListed, List.foldl_cons] at ih ⊢
    rw [ih]
    by_cases h1 : k ∈ rest.map CanonicalHeaderKey
    · simp [h1]
    · simp only [h1, if_false, List.map_cons, List.mem_cons, or_false]
      by_cases h2 : k = CanonicalHeaderKey n
      · subst h2
        simp only [if_true]
        split_ifs <;> simp [lookup_assign, lookup_Del, CanonicalHeaderKey_idem]
      · simp only [h2, if_false]
        split_ifs <;> simp [lookup_assign, lookup_Del, CanonicalHeaderKey_idem, h2]

theorem lookup_deleteMatchingLoop_none (re : Regexp) (ks : List String) (h : Header)
    (k : String) (hk : h.lookup k = none) :
    (deleteMatchingLoop re ks h).lookup k = none := by
  induction ks generalizing h with
  | nil => simpa [deleteMatchingLoop] using hk
  | cons x rest ih =>
    simp only [deleteMatchingLoop]
    split_ifs
    · apply ih
      rw [lookup_Del, hk]
      simp
    · exact ih h hk

theorem lookup_deleteMatchingLoop_keep (re : Regexp) (ks : List String) (h : Header)
    (k : String)
    (hks : ∀ x ∈ ks, re.MatchString x = true → CanonicalHeaderKey x ≠ k) :
    (deleteMatchingLoop re ks h).lookup k = h.lookup k := by
  induction ks generalizing h with
  | nil => simp [deleteMatchingLoop]
  | cons x rest ih =>
    have hrest : ∀ y ∈ rest, re.MatchString y = true → CanonicalHeaderKey y ≠ k :=
      fun y hy => hks y (List.mem_cons_of_mem _ hy)
    simp only [deleteMatchingLoop]
    split_ifs with hc
    · rw [ih _ hrest, lookup_Del]
      have hm : re.MatchString x = true := by
        simp only [Bool.and_eq_true] at hc
        exact hc.2
      have hne := hks x (List.mem_cons_self _ _) hm
      rw [if_neg (fun e => hne e.symm)]
    · exact ih h hrest

theorem lookup_copyMatching (re : Regexp) (resp : Header) (hnd : resp.keys.Nodup) (h : Header)
    (k : String) :
    (copyMatching re resp h).lookup k =
      if re.MatchString k = true then
        (match resp.lookup k with
         | some vs => some vs
         | none => h.lookup k)
      else h.lookup k := by
  induction resp generalizing h with
  | nil => simp [copyMatching, Header.lookup]
  | cons e rest ih =>
    obtain ⟨a, ws⟩ := e
    simp only [Header.keys, List.map_cons, List.nodup_cons] at hnd
    have ih2 := ih hnd.2
    simp only [copyMatching, List.foldl_cons] at ih2 ⊢
    rw [ih2]
    by_cases hak : a = k
    · subst hak
      have hn : Header.lookup rest a = none := by
        by_contra hc
        exact hnd.1 ((mem_keys_iff rest a).2 hc)
      by_cases hm : re.MatchString a = true
      · simp [hm, hn, Header.lookup, lookup_assign]
      · simp [hm]
    · have hk2 : ¬ k = a := fun e => hak e.symm
      by_cases hm : re.MatchString a = true
      · simp only [hm, if_true, Header.lookup, hak, if_false, lookup_assign, hk2]
      · simp [hm, Header.lookup, hak]

/-- After the merge a listed name reads the values of the response, when no
pattern is configured or the keys of the request are in canonical form. -/
theorem index_successMerge_listed (fa : ForwardAuth) (resp reqHeader : Header) (n : String)
    (hn : n ∈ fa.authResponseHeaders) (hresp : resp.keys.Nodup)
    (hcanon : fa.authResponseHeadersRegex = none ∨
      ∀ k ∈ reqHeader.keys, CanonicalHeaderKey k = k) :
    (successMerge fa resp reqHeader).index (CanonicalHeaderKey n) =
      resp.index (CanonicalHeaderKey n) := by
  have hmem : CanonicalHeaderKey n ∈ fa.authResponseHeaders.map CanonicalHeaderKey :=
    List.mem_map.2 ⟨n, hn, rfl⟩
  have hlisted : (mergeListed resp fa.authResponseHeaders reqHeader).index
      (CanonicalHeaderKey n) = resp.index (CanonicalHeaderKey n) := by
    simp only [Header.index, lookup_mergeListed, hmem, if_true]
    split_ifs with hl
    · rfl
    · simp only [Header.index, gt_iff_lt, List.length_pos, ne_eq, not_not] at hl
      simp [hl]
  unfold successMerge
  cases hre : fa.authResponseHeadersRegex with
  | none => exact hlisted
  | some re =>
    have hkeys : ∀ k ∈ reqHeader.keys, CanonicalHeaderKey k = k := by
      rcases hcanon with h | h
      · rw [hre] at h; exact absurd h (by simp)
      · exact h
    have hkeys2 : ∀ x ∈ (mergeListed resp fa.authResponseHeaders reqHeader).keys,
        CanonicalHeaderKey x = x := by
      intro x hx
      rw [mem_keys_iff, lookup_mergeListed] at hx
      by_cases hxl : x ∈ fa.authResponseHeaders.map CanonicalHeaderKey
      · obtain ⟨m, _, hm⟩ := List.mem_map.1 hxl
        rw [← hm, CanonicalHeaderKey_idem]
      · rw [if_neg hxl] at hx
        exact hkeys x ((mem_keys_iff _ _).2 hx)
    simp only [Header.index] at hlisted ⊢
    rw [lookup_copyMatching _ _ hresp]
    by_cases hm : re.MatchString (CanonicalHeaderKey n) = true
    · simp only [hm, if_true]
      cases hl : resp.lookup (CanonicalHeaderKey n) with
      | some vs => rfl
      | none =>
        have hnone : (mergeListed resp fa.authResponseHeaders reqHeader).lookup
            (CanonicalHeaderKey n) = none := by
          rw [lookup_mergeListed, if_pos hmem]
          simp [Header.index, hl]
        simp only [lookup_deleteMatchingLoop_none _ _ _ _ hnone]
    · simp only [hm, if_false]
      rw [lookup_deleteMatchingLoop_keep]
      · exact hlisted
      · intro x hx hmx hcx
        rw [hkeys2 x hx] at hcx
        rw [hcx] at hmx
        exact hm hmx

/-- The condition on the keys of the request that `ServeHTTP_listed_header`
carries for a configured pattern cannot be dropped.  A header map holding the
key `x-user`, which `net/http` never stores, loses the listed header: with
`authResponseHeaders = ["X-User"]`, the pattern `^x-` and a response carrying
`X-User: alice`, the request handed on has no `X-User` value. -/
theorem ServeHTTP_listed_header_lost :
    (sampleResponse 200).Header.index (CanonicalHeaderKey "X-User") = ["alice"] ∧
      (nextCalls (ServeHTTP lowerCaseForwardAuth (sampleEnv 200) [] lowerCaseRequest).events).map
        (fun r => r.Header.index (CanonicalHeaderKey "X-User")) = [[]] := by
  decide

/-- C10: for a response with status in [200,300) and a name `n` of
`authResponseHeaders`, the request handed to the next handler has under the
canonical form of `n` exactly the response's values for it (none when the
response has none), whatever the inbound request held there and whether or not
a response-header pattern is configured.  The inbound request is one
`net/http` delivers: its header names are stored in canonical form, which the
proof uses only when a pattern is configured. -/
theorem ServeHTTP_listed_header (fa : ForwardAuth) (env : Env) (rwHeader : Header)
    (req : Request) (resp : Response) (body : String) (n : String)
    (hgate : runHeadersRegex req.Header fa.runIfHeadersRegex = true)
    (hnew : env.NewRequest fa.address = true)
    (hdo : env.Do fa.address (writeHeader req [] fa.trustForwardHeader fa.authRequestHeaders)
      = .ok resp)
    (hbody : resp.Body = .ok body)
    (hs : 200 ≤ resp.StatusCode ∧ resp.StatusCode < 300)
    (hn : n ∈ fa.authResponseHeaders) (hresp : resp.Header.keys.Nodup)
    (hcanon : fa.authResponseHeadersRegex = none ∨
      ∀ k ∈ req.Header.keys, CanonicalHeaderKey k = k) :
    ∃ r, nextCalls (ServeHTTP fa env rwHeader req).events = [r] ∧
      r.Header.index (CanonicalHeaderKey n) = resp.Header.index (CanonicalHeaderKey n) := by
  have hns : ¬ (resp.StatusCode < 200 ∨ resp.StatusCode ≥ 300) := by omega
  refine ⟨{ req with Header := successMerge fa resp.Header req.Header,
                     RequestURI := req.URL.requestURI }, ?_, ?_⟩
  · unfold ServeHTTP
    simp [hgate, hnew, hdo, hbody, hns, nextCalls]
  · exact index_successMerge_listed fa resp.Header req.Header n hn hresp hcanon

/-- C10 at the input of the specification: `X-User: alice` replaces the inbound
`X-User: mallory`; and, with the pattern `^X-Auth-` configured, the listed
`X-Auth-Role` holds the response's `admin`. -/
theorem ServeHTTP_listed_header_witness :
    (∃ r, nextCalls (ServeHTTP sampleForwardAuth (sampleEnv 200) [] sampleRequest).events = [r] ∧
      r.Header.index (CanonicalHeaderKey "X-User") = ["alice"]) ∧
    (∃ r, nextCalls (ServeHTTP authForwardAuth authEnv [] authRequest).events = [r] ∧
      r.Header.index (CanonicalHeaderKey "X-Auth-Role") = ["admin"]) :=
  ⟨ServeHTTP_listed_header sampleForwardAuth (sampleEnv 200) [] sampleRequest
      (sampleResponse 200) "denied" "X-User" (by decide) rfl rfl rfl (by decide) (by decide)
      (by decide) (Or.inl rfl),
    ServeHTTP_listed_header authForwardAuth authEnv [] authRequest authResponse ""
      "X-Auth-Role" (by decide) rfl rfl rfl (by decide) (by decide) (by decide)
      (Or.inr (by decide))⟩

/-! ## The merge of a 2xx response: the pattern -/

theorem lookup_deleteMatchingLoop (re : Regexp) (ks : List String) (h : Header) (k : String) :
    (deleteMatchingLoop re ks h).lookup k =
      if ∃ x ∈ ks, h.lookup x ≠ none ∧ re.MatchString x = true ∧ CanonicalHeaderKey x = k
      then none else h.lookup k := by
  induction ks generalizing h with
  | nil => simp [deleteMatchingLoop]
  | cons y rest ih =>
    simp only [deleteMatchingLoop]
    by_cases hc : ((h.lookup y).isSome && re.MatchString y) = true
    · simp only [hc, if_true]
      rw [ih]
      simp only [Bool.and_eq_true, Option.isSome_iff_ne_none] at hc
      by_cases hk : k = CanonicalHeaderKey y
      · have hex : ∃ x ∈ y :: rest, h.lookup x ≠ none ∧ re.MatchString x = true ∧
            CanonicalHeaderKey x = k := ⟨y, List.mem_cons_self _ _, hc.1, hc.2, hk.symm⟩
        rw [if_pos hex, lookup_Del, if_pos hk]
        simp
      · have hiff : (∃ x ∈ rest, (h.Del y).lookup x ≠ none ∧ re.MatchString x = true ∧
            CanonicalHeaderKey x = k) ↔
            (∃ x ∈ y :: rest, h.lookup x ≠ none ∧ re.MatchString x = true ∧
              CanonicalHeaderKey x = k) := by
          constructor
          · rintro ⟨x, hx, hl, hm, hcx⟩
            refine ⟨x, List.mem_cons_of_mem _ hx, ?_, hm, hcx⟩
            rw [lookup_Del] at hl
            by_cases hxy : x = CanonicalHeaderKey y
            · simp [hxy] at hl
            · simpa [hxy] using hl
          · rintro ⟨x, hx, hl, hm, hcx⟩
            rcases List.mem_cons.1 hx with hxy | hxr
            · subst hxy; exact absurd hcx.symm hk
            · refine ⟨x, hxr, ?_, hm, hcx⟩
              rw [lookup_Del]
              have hxy : x ≠ CanonicalHeaderKey y := by
                intro e
                apply hk
                rw [← hcx, e, CanonicalHeaderKey_idem]
              simpa [hxy] using hl
        rw [lookup_Del, if_neg hk]
        by_cases hex : ∃ x ∈ y :: rest, h.lookup x ≠ none ∧ re.MatchString x = true ∧
            CanonicalHeaderKey x = k
        · rw [if_pos hex, if_pos (hiff.2 hex)]
        · rw [if_neg hex, if_neg (fun e => hex (hiff.1 e))]
    · simp only [hc, Bool.false_eq_true, if_false]
      rw [ih]
      have hiff : (∃ x ∈ rest, h.lookup x ≠ none ∧ re.MatchString x = true ∧
            CanonicalHeaderKey x = k) ↔
            (∃ x ∈ y :: rest, h.lookup x ≠ none ∧ re.MatchString x = true ∧
              CanonicalHeaderKey x = k) := by
        constructor
        · rintro ⟨x, hx, hr⟩
          exact ⟨x, List.mem_cons_of_mem _ hx, hr⟩
        · rintro ⟨x, hx, hl, hm, hcx⟩
          rcases List.mem_cons.1 hx with hxy | hxr
          · subst hxy
            exfalso; apply hc
            simp [Option.isSome_iff_ne_none, hl, hm]
          · exact ⟨x, hxr, hl, hm, hcx⟩
      by_cases hex : ∃ x ∈ y :: rest, h.lookup x ≠ none ∧ re.MatchString x = true ∧
          CanonicalHeaderKey x = k
      · rw [if_pos hex, if_pos (hiff.2 hex)]
      · rw [if_neg hex, if_neg (fun e => hex (hiff.1 e))]

open Classical in
theorem lookup_deleteMatching_keys (re : Regexp) (h : Header) (k : String) :
    (deleteMatchingLoop re h.keys h).lookup k =
      if deletedBy re h k then none else h.lookup k := by
  rw [lookup_deleteMatchingLoop]
  have hiff : (∃ x ∈ h.keys, h.lookup x ≠ none ∧ re.MatchString x = true ∧
      CanonicalHeaderKey x = k) ↔ deletedBy re h k := by
    constructor
    · rintro ⟨x, _, hr⟩; exact ⟨x, hr⟩
    · rintro ⟨x, hl, hr⟩; exact ⟨x, (mem_keys_iff h x).2 hl, hl, hr⟩
  by_cases hd : deletedBy re h k
  · rw [if_pos hd, if_pos (hiff.2 hd)]
  · rw [if_neg hd, if_neg (fun e => hd (hiff.1 e))]

theorem lookup_copyMatching_of_not_match (re : Regexp) (resp : Header) (h : Header)
    (k : String) (hk : re.MatchString k = false) :
    (copyMatching re resp h).lookup k = h.lookup k := by
  induction resp generalizing h with
  | nil => simp [copyMatching]
  | cons e rest ih =>
    simp only [copyMatching, List.foldl_cons] at ih ⊢
    rw [ih]
    split_ifs with hm
    · rw [lookup_assign, if_neg]
      intro e1
      rw [e1, hm] at hk
      exact absurd hk (by decide)
    · rfl

/-- The keys of the request after lines 218-224 are in canonical form when
those of the inbound request are. -/
theorem canonical_keys_mergeListed (resp : Header) (names : List String) (h : Header)
    (hkeys : ∀ k ∈ h.keys, CanonicalHeaderKey k = k) :
    ∀ x, (mergeListed resp names h).lookup x ≠ none → CanonicalHeaderKey x = x := by
  intro x hx
  rw [lookup_mergeListed] at hx
  by_cases hxl : x ∈ names.map CanonicalHeaderKey
  · obtain ⟨m, _, hm⟩ := List.mem_map.1 hxl
    rw [← hm, CanonicalHeaderKey_idem]
  · rw [if_neg hxl] at hx
    exact hkeys x ((mem_keys_iff _ _).2 hx)

open Classical in
/-- What a key reads after the merge of lines 218-238 when a pattern is
configured. -/
theorem lookup_successMerge_regex (fa : ForwardAuth) (re : Regexp) (resp h : Header)
    (k : String) (hre : fa.authResponseHeadersRegex = some re) (hresp : resp.keys.Nodup) :
    (successMerge fa resp h).lookup k =
      if re.MatchString k = true ∧ resp.lookup k ≠ none then resp.lookup k
      else if deletedBy re (mergeListed resp fa.authResponseHeaders h) k then none
      else (mergeListed resp fa.authResponseHeaders h).lookup k := by
  unfold successMerge
  simp only [hre]
  rw [lookup_copyMatching _ _ hresp, lookup_deleteMatching_keys]
  by_cases hm : re.MatchString k = true
  · cases hl : resp.lookup k with
    | some vs => simp [hm]
    | none => simp [hm]
  · simp [hm]

theorem lookup_successMerge_none (fa : ForwardAuth) (resp h : Header)
    (k : String) (hre : fa.authResponseHeadersRegex = none) :
    (successMerge fa resp h).lookup k =
      (mergeListed resp fa.authResponseHeaders h).lookup k := by
  unfold successMerge
  simp only [hre]

/-- A key in canonical form that the pattern matches reads after the merge
what it reads in the response. -/
theorem lookup_successMerge_matched (fa : ForwardAuth) (re : Regexp) (resp h : Header)
    (k : String) (hre : fa.authResponseHeadersRegex = some re) (hresp : resp.keys.Nodup)
    (hm : re.MatchString k = true) (hk : CanonicalHeaderKey k = k) :
    (successMerge fa resp h).lookup k = resp.lookup k := by
  rw [lookup_successMerge_regex fa re resp h k hre hresp]
  by_cases hl : resp.lookup k = none
  · have h1 : ¬ (re.MatchString k = true ∧ resp.lookup k ≠ none) := fun e => e.2 hl
    rw [if_neg h1, hl]
    by_cases hd : deletedBy re (mergeListed resp fa.authResponseHeaders h) k
    · rw [if_pos hd]
    · rw [if_neg hd]
      by_contra hc
      exact hd ⟨k, hc, hm, hk⟩
  · rw [if_pos ⟨hm, hl⟩]

/-- A key that is neither listed nor matched reads after the merge what it
read before, when the keys of the request are in canonical form. -/
theorem lookup_successMerge_frame (fa : ForwardAuth) (resp h : Header) (k : String)
    (hkeys : ∀ x ∈ h.keys, CanonicalHeaderKey x = x)
    (hl : k ∉ fa.authResponseHeaders.map CanonicalHeaderKey)
    (hm : ∀ re, fa.authResponseHeadersRegex = some re → re.MatchString k = false) :
    (successMerge fa resp h).lookup k = h.lookup k := by
  have hlisted : (mergeListed resp fa.authResponseHeaders h).lookup k = h.lookup k := by
    rw [lookup_mergeListed, if_neg hl]
  unfold successMerge
  cases hre : fa.authResponseHeadersRegex with
  | none => exact hlisted
  | some re =>
    have hmk := hm re hre
    simp only
    rw [lookup_copyMatching_of_not_match _ _ _ _ hmk, lookup_deleteMatchingLoop_keep, hlisted]
    intro x hx hmx hcx
    have hcan := canonical_keys_mergeListed resp fa.authResponseHeaders h hkeys x
      ((mem_keys_iff _ _).1 hx)
    rw [hcan] at hcx
    rw [hcx, hmk] at hmx
    exact absurd hmx (by decide)

theorem lookup_mergeListed_twice (resp : Header) (names : List String) (h : Header)
    (k : String) :
    (mergeListed resp names (mergeListed resp names h)).lookup k =
      (mergeListed resp names h).lookup k := by
  rw [lookup_mergeListed, lookup_mergeListed]
  by_cases hl : k ∈ names.map CanonicalHeaderKey
  · rw [if_pos hl, if_pos hl]
  · rw [if_neg hl, if_neg hl]

/-- Idempotence of the merge with a pattern, read key by key, when the keys of
the response are in canonical form. -/
theorem lookup_successMerge_twice_regex (fa : ForwardAuth) (re : Regexp) (resp h : Header)
    (k : String) (hre : fa.authResponseHeadersRegex = some re) (hresp : resp.keys.Nodup)
    (hcr : ∀ y ∈ resp.keys, CanonicalHeaderKey y = y) :
    (successMerge fa resp (successMerge fa resp h)).lookup k =
      (successMerge fa resp h).lookup k := by
  have hg : ∀ x, (successMerge fa resp h).lookup x = _ :=
    fun x => lookup_successMerge_regex fa re resp h x hre hresp
  have hg1 : ∀ x, (mergeListed resp fa.authResponseHeaders (successMerge fa resp h)).lookup x
      = _ := fun x => lookup_mergeListed resp fa.authResponseHeaders (successMerge fa resp h) x
  have hh1 : ∀ x, (mergeListed resp fa.authResponseHeaders h).lookup x = _ :=
    fun x => lookup_mergeListed resp fa.authResponseHeaders h x
  rw [lookup_successMerge_regex fa re resp (successMerge fa resp h) k hre hresp]
  by_cases hA : re.MatchString k = true ∧ resp.lookup k ≠ none
  · rw [if_pos hA, hg k, if_pos hA]
  · rw [if_neg hA]
    have hgk := hg k
    rw [if_neg hA] at hgk
    by_cases hd : deletedBy re (mergeListed resp fa.authResponseHeaders h) k
    · rw [if_pos hd] at hgk
      rw [hgk]
      by_cases hd2 : deletedBy re
          (mergeListed resp fa.authResponseHeaders (successMerge fa resp h)) k
      · rw [if_pos hd2]
      · rw [if_neg hd2]
        obtain ⟨x, hxl, hxm, hxc⟩ := hd
        have hx1 : (mergeListed resp fa.authResponseHeaders (successMerge fa resp h)).lookup x
            = none := by
          by_contra hc
          exact hd2 ⟨x, hc, hxm, hxc⟩
        have hx1' := hx1
        rw [hg1 x] at hx1'
        by_cases hxL : x ∈ fa.authResponseHeaders.map CanonicalHeaderKey
        · obtain ⟨m, _, hm⟩ := List.mem_map.1 hxL
          have hxk : x = k := by rw [← hxc, ← hm, CanonicalHeaderKey_idem]
          rw [← hxk]; exact hx1
        · rw [if_neg hxL, hg x] at hx1'
          by_cases hB : re.MatchString x = true ∧ resp.lookup x ≠ none
          · rw [if_pos hB] at hx1'
            exact absurd hx1' hB.2
          · rw [if_neg hB] at hx1'
            by_cases hdx : deletedBy re (mergeListed resp fa.authResponseHeaders h) x
            · obtain ⟨x', _, _, hc'⟩ := hdx
              have hxk : x = k := by rw [← hxc, ← hc', CanonicalHeaderKey_idem]
              rw [← hxk]; exact hx1
            · rw [if_neg hdx] at hx1'
              exact absurd hx1' hxl
    · rw [if_neg hd] at hgk
      have hnd2 : ¬ deletedBy re
          (mergeListed resp fa.authResponseHeaders (successMerge fa resp h)) k := by
        rintro ⟨x, hxl, hxm, hxc⟩
        rw [hg1 x] at hxl
        by_cases hxL : x ∈ fa.authResponseHeaders.map CanonicalHeaderKey
        · rw [if_pos hxL] at hxl
          apply hd
          refine ⟨x, ?_, hxm, hxc⟩
          rw [hh1 x, if_pos hxL]
          exact hxl
        · rw [if_neg hxL, hg x] at hxl
          by_cases hB : re.MatchString x = true ∧ resp.lookup x ≠ none
          · have hcx := hcr x ((mem_keys_iff _ _).2 hB.2)
            rw [hcx] at hxc
            rw [hxc] at hB
            exact hA hB
          · rw [if_neg hB] at hxl
            by_cases hdx : deletedBy re (mergeListed resp fa.authResponseHeaders h) x
            · rw [if_pos hdx] at hxl
              exact hxl rfl
            · rw [if_neg hdx] at hxl
              exact hd ⟨x, hxl, hxm, hxc⟩
      rw [if_neg hnd2, hgk, hg1 k, hh1 k]
      by_cases hkL : k ∈ fa.authResponseHeaders.map CanonicalHeaderKey
      · rw [if_pos hkL, if_pos hkL]
      · rw [if_neg hkL, if_neg hkL, hgk, hh1 k, if_neg hkL]

/-- C11: when a response-header pattern is configured and the status is in
[200,300), every header name `k` in canonical form that the pattern matches
reads in the request handed to the next handler exactly what it reads in the
response: an inbound header the response lacks is removed, a header of the
response is added, also when `k` is listed in `authResponseHeaders`. -/
theorem ServeHTTP_matched_header (fa : ForwardAuth) (env : Env) (rwHeader : Header)
    (req : Request) (resp : Response) (body : String) (re : Regexp) (k : String)
    (hgate : runHeadersRegex req.Header fa.runIfHeadersRegex = true)
    (hnew : env.NewRequest fa.address = true)
    (hdo : env.Do fa.address (writeHeader req [] fa.trustForwardHeader fa.authRequestHeaders)
      = .ok resp)
    (hbody : resp.Body = .ok body)
    (hs : 200 ≤ resp.StatusCode ∧ resp.StatusCode < 300)
    (hre : fa.authResponseHeadersRegex = some re) (hm : re.MatchString k = true)
    (hk : CanonicalHeaderKey k = k) (hresp : resp.Header.keys.Nodup) :
    ∃ r, nextCalls (ServeHTTP fa env rwHeader req).events = [r] ∧
      r.Header.lookup k = resp.Header.lookup k := by
  have hns : ¬ (resp.StatusCode < 200 ∨ resp.StatusCode ≥ 300) := by omega
  refine ⟨{ req with Header := successMerge fa resp.Header req.Header,
                     RequestURI := req.URL.requestURI }, ?_, ?_⟩
  · unfold ServeHTTP
    simp [hgate, hnew, hdo, hbody, hns, nextCalls]
  · exact lookup_successMerge_matched fa re resp.Header req.Header k hre hresp hm hk

/-- C11 at the input of the specification: with the pattern `^X-Auth-` and the
response header `X-Auth-Role: admin`, the inbound `X-Auth-Other` is removed and
`X-Auth-Role` is `admin`. -/
theorem ServeHTTP_matched_header_witness :
    (∃ r, nextCalls (ServeHTTP authForwardAuth authEnv [] authRequest).events = [r] ∧
      r.Header.lookup "X-Auth-Other" = none) ∧
    (∃ r, nextCalls (ServeHTTP authForwardAuth authEnv [] authRequest).events = [r] ∧
      r.Header.lookup "X-Auth-Role" = some ["admin"]) :=
  ⟨ServeHTTP_matched_header authForwardAuth authEnv [] authRequest authResponse ""
      (Regexp.startsWith "X-Auth-") "X-Auth-Other" (by decide) rfl rfl rfl (by decide) rfl
      (by decide) (by decide) (by decide),
    ServeHTTP_matched_header authForwardAuth authEnv [] authRequest authResponse ""
      (Regexp.startsWith "X-Auth-") "X-Auth-Role" (by decide) rfl rfl rfl (by decide) rfl
      (by decide) (by decide) (by decide)⟩

/-- The condition on the keys of the response that `successMerge_idempotent`
carries for a configured pattern cannot be dropped.  With a response header map
holding the key `x-a`, which `net/http` never produces, the pattern `^x-` and a
request holding `X-A`, the first merge keeps `X-A` and the second removes it. -/
theorem successMerge_not_idempotent :
    (successMerge patternForwardAuth [("x-a", ["2"])] [("X-A", ["1"])]).lookup "X-A"
        = some ["1"] ∧
      (successMerge patternForwardAuth [("x-a", ["2"])]
        (successMerge patternForwardAuth [("x-a", ["2"])] [("X-A", ["1"])])).lookup "X-A"
        = none := by
  decide

/-- C12: merging a response into a header set twice gives the same header
state as merging it once: every key reads the same values, for every header
set of the request, every list of names and every optional pattern.  The
response is one `net/http` delivers: its header names are stored in canonical
form, which the proof uses only when a pattern is configured. -/
theorem successMerge_idempotent (fa : ForwardAuth) (resp h : Header)
    (hresp : resp.keys.Nodup)
    (hcr : fa.authResponseHeadersRegex = none ∨ ∀ y ∈ resp.keys, CanonicalHeaderKey y = y) :
    ∀ k, (successMerge fa resp (successMerge fa resp h)).lookup k =
      (successMerge fa resp h).lookup k := by
  intro k
  cases hre : fa.authResponseHeadersRegex with
  | none =>
    rw [lookup_successMerge_none fa resp _ k hre, lookup_successMerge_none fa resp h k hre]
    have hfun : successMerge fa resp h = mergeListed resp fa.authResponseHeaders h := by
      unfold successMerge
      simp only [hre]
    rw [hfun]
    exact lookup_mergeListed_twice resp fa.authResponseHeaders h k
  | some re =>
    have hc : ∀ y ∈ resp.keys, CanonicalHeaderKey y = y := by
      rcases hcr with h0 | h0
      · rw [hre] at h0; exact absurd h0 (by simp)
      · exact h0
    exact lookup_successMerge_twice_regex fa re resp h k hre hresp hc

/-- C12 at a concrete input: the merge of `authResponse` into the headers of
`authRequest`, with the pattern `^X-Auth-`. -/
theorem successMerge_idempotent_witness :
    (successMerge authForwardAuth authResponse.Header
        (successMerge authForwardAuth authResponse.Header authRequest.Header)).lookup
        "X-Auth-Other" =
      (successMerge authForwardAuth authResponse.Header authRequest.Header).lookup
        "X-Auth-Other" ∧
    (successMerge authForwardAuth authResponse.Header
        (successMerge authForwardAuth authResponse.Header authRequest.Header)).lookup
        "X-Auth-Role" = some ["admin"] :=
  ⟨successMerge_idempotent authForwardAuth authResponse.Header authRequest.Header (by decide)
      (Or.inr (by decide)) "X-Auth-Other",
    successMerge_idempotent authForwardAuth authResponse.Header authRequest.Header (by decide)
      (Or.inr (by decide)) "X-Auth-Role"⟩

/-- C18: when the header names of the inbound request are in canonical form
and the status is in [200,300), a header name that is neither the canonical
form of an entry of `authResponseHeaders` nor matched by the pattern reads in
the request handed to the next handler exactly what it read in the inbound
request: its values are kept, and a name the inbound request lacks is not
added. -/
theorem ServeHTTP_merge_frame (fa : ForwardAuth) (env : Env) (rwHeader : Header)
    (req : Request) (resp : Response) (body : String) (k : String)
    (hgate : runHeadersRegex req.Header fa.runIfHeadersRegex = true)
    (hnew : env.NewRequest fa.address = true)
    (hdo : env.Do fa.address (writeHeader req [] fa.trustForwardHeader fa.authRequestHeaders)
      = .ok resp)
    (hbody : resp.Body = .ok body)
    (hs : 200 ≤ resp.StatusCode ∧ resp.StatusCode < 300)
    (hkeys : ∀ x ∈ req.Header.keys, CanonicalHeaderKey x = x)
    (hl : k ∉ fa.authResponseHeaders.map CanonicalHeaderKey)
    (hm : ∀ re, fa.authResponseHeadersRegex = some re → re.MatchString k = false) :
    ∃ r, nextCalls (ServeHTTP fa env rwHeader req).events = [r] ∧
      r.Header.lookup k = req.Header.lookup k := by
  have hns : ¬ (resp.StatusCode < 200 ∨ resp.StatusCode ≥ 300) := by omega
  refine ⟨{ req with Header := successMerge fa resp.Header req.Header,
                     RequestURI := req.URL.requestURI }, ?_, ?_⟩
  · unfold ServeHTTP
    simp [hgate, hnew, hdo, hbody, hns, nextCalls]
  · exact lookup_successMerge_frame fa resp.Header req.Header k hkeys hl hm

/-- C18 at a concrete input: `Accept` is neither listed nor matched by
`^X-Auth-` and keeps its value. -/
theorem ServeHTTP_merge_frame_witness :
    ∃ r, nextCalls (ServeHTTP authForwardAuth authEnv [] authRequest).events = [r] ∧
      r.Header.lookup "Accept" = some ["text/html"] :=
  ServeHTTP_merge_frame authForwardAuth authEnv [] authRequest authResponse "" "Accept"
    (by decide) rfl rfl rfl (by decide) (by decide) (by decide)
    (fun re hre => by
      have h : re = Regexp.startsWith "X-Auth-" := (Option.some.inj hre).symm
      rw [h]; decide)

/-! ## The relay of a response that is not 2xx, and the failures -/

/-- C13: for a response whose status is outside [200,300) and whose `Location`
header is absent or parses, `ServeHTTP` writes that status and then the
response body to the client; every key of the response that is not hop-by-hop
is a key of the client's header set, with the response's values appended to
what the client's header set held (for `Location`, the resolved location
instead); and a non-empty location makes the client's `Location` exactly the
resolved location. -/
theorem ServeHTTP_failure_relay (fa : ForwardAuth) (env : Env) (rwHeader : Header)
    (req : Request) (resp : Response) (body : String)
    (hgate : runHeadersRegex req.Header fa.runIfHeadersRegex = true)
    (hnew : env.NewRequest fa.address = true)
    (hdo : env.Do fa.address (writeHeader req [] fa.trustForwardHeader fa.authRequestHeaders)
      = .ok resp)
    (hbody : resp.Body = .ok body)
    (hs : resp.StatusCode < 200 ∨ resp.StatusCode ≥ 300)
    (hloc : ∀ msg, resp.Location env fa.address ≠ .error (.parse msg))
    (hresp : resp.Header.keys.Nodup) :
    (ServeHTTP fa env rwHeader req).events =
      [.Do (writeHeader req [] fa.trustForwardHeader fa.authRequestHeaders),
        .WriteHeader resp.StatusCode, .Write body] ∧
    (∀ k vs, resp.Header.lookup k = some vs → k ∉ hopHeaders →
      k ∈ (ServeHTTP fa env rwHeader req).rwHeader.keys) ∧
    (∀ k vs, resp.Header.lookup k = some vs → k ∉ hopHeaders → k ≠ "Location" →
      (ServeHTTP fa env rwHeader req).rwHeader.lookup k = some (rwHeader.index k ++ vs)) ∧
    (∀ u, resp.Location env fa.address = .ok u → u ≠ "" →
      (ServeHTTP fa env rwHeader req).rwHeader.lookup "Location" = some [u]) := by
  have hcanon : hopHeaders.map CanonicalHeaderKey = hopHeaders := by decide
  have hcl : CanonicalHeaderKey "Location" = "Location" := by decide
  have hbase : ∀ k vs, resp.Header.lookup k = some vs → k ∉ hopHeaders →
      (RemoveHeaders (CopyHeaders rwHeader resp.Header) hopHeaders).lookup k =
        some (rwHeader.index k ++ vs) := by
    intro k vs hl hk
    rw [lookup_RemoveHeaders, hcanon, if_neg hk, lookup_CopyHeaders _ hresp, hl]
  unfold ServeHTTP
  simp only [hgate, hnew, hdo, hbody, hs, Bool.not_true, Bool.false_eq_true, if_false, if_true]
  cases hl : resp.Location env fa.address with
  | error err =>
    cases err with
    | parse msg => exact absurd hl (hloc msg)
    | ErrNoLocation =>
      simp only [ne_eq, not_true_eq_false, if_false]
      refine ⟨by first | rfl | trivial, ?_, ?_, ?_⟩
      · intro k vs hk hh
        rw [mem_keys_iff, hbase k vs hk hh]
        simp
      · intro k vs hk hh _
        exact hbase k vs hk hh
      · intro u hu
        exact absurd hu (by simp)
  | ok u =>
    simp only
    by_cases hu : u = ""
    · simp only [hu, ne_eq, not_true_eq_false, if_false]
      refine ⟨by first | rfl | trivial, ?_, ?_, ?_⟩
      · intro k vs hk hh
        rw [mem_keys_iff, hbase k vs hk hh]
        simp
      · intro k vs hk hh _
        exact hbase k vs hk hh
      · intro u' hu' hne
        rw [← Except.ok.inj hu'] at hne
        exact absurd rfl hne
    · simp only [ne_eq, hu, not_false_eq_true, if_true]
      refine ⟨by first | rfl | trivial, ?_, ?_, ?_⟩
      · intro k vs hk hh
        rw [mem_keys_iff, lookup_Set, hcl]
        by_cases hkl : k = "Location"
        · simp [hkl]
        · rw [if_neg hkl, hbase k vs hk hh]
          simp
      · intro k vs hk hh hkl
        rw [lookup_Set, hcl, if_neg hkl]
        exact hbase k vs hk hh
      · intro u' hu' _
        rw [← Except.ok.inj hu', lookup_Set, hcl, if_pos rfl]

/-- C13 at the input of the specification: status 302 with `Location:
https://login.example/` is relayed with that status, location and body. -/
theorem ServeHTTP_failure_relay_witness :
    (ServeHTTP sampleForwardAuth redirectEnv [] sampleRequest).events =
      [.Do (writeHeader sampleRequest [] true []), .WriteHeader 302, .Write "please log in"] ∧
    (ServeHTTP sampleForwardAuth redirectEnv [] sampleRequest).rwHeader.lookup "Set-Cookie"
      = some ["s=1"] ∧
    (ServeHTTP sampleForwardAuth redirectEnv [] sampleRequest).rwHeader.lookup "Location"
      = some ["https://login.example/"] :=
  have hl : redirectResponse.Location redirectEnv sampleForwardAuth.address
      = .ok "https://login.example/" := by
    simp [Response.Location, redirectResponse, redirectEnv, Header.Get, Header.index,
      Header.lookup, show CanonicalHeaderKey "Location" = "Location" by decide]
  have h := ServeHTTP_failure_relay sampleForwardAuth redirectEnv [] sampleRequest
    redirectResponse "please log in" (by decide) rfl rfl rfl (by decide)
    (fun msg e => by rw [hl] at e; cases e) (by decide)
  ⟨h.1, h.2.2.1 "Set-Cookie" ["s=1"] (by decide) (by decide) (by decide),
    h.2.2.2 "https://login.example/" hl (by decide)⟩

/-- C14: for a gated request each failure of the authentication round trip
ends `ServeHTTP` with status 500 written to the client and nothing else: no
body, no call of the next handler, no second outbound call.  The failures are
an address `http.NewRequest` rejects (no outbound call is made at all), an
error of the call, an error reading the body, and, for a status outside
[200,300), a `Location` header that fails to parse. -/
theorem ServeHTTP_terminal_failure (fa : ForwardAuth) (env : Env) (rwHeader : Header)
    (req : Request)
    (hgate : runHeadersRegex req.Header fa.runIfHeadersRegex = true) :
    (env.NewRequest fa.address = false →
      (ServeHTTP fa env rwHeader req).events = [.WriteHeader 500]) ∧
    (env.NewRequest fa.address = true →
      ((∀ e, env.Do fa.address
          (writeHeader req [] fa.trustForwardHeader fa.authRequestHeaders) = .error e →
        (ServeHTTP fa env rwHeader req).events =
          [.Do (writeHeader req [] fa.trustForwardHeader fa.authRequestHeaders),
            .WriteHeader 500]) ∧
      (∀ resp e, env.Do fa.address
          (writeHeader req [] fa.trustForwardHeader fa.authRequestHeaders) = .ok resp →
        resp.Body = .error e →
        (ServeHTTP fa env rwHeader req).events =
          [.Do (writeHeader req [] fa.trustForwardHeader fa.authRequestHeaders),
            .WriteHeader 500]) ∧
      (∀ resp body msg, env.Do fa.address
          (writeHeader req [] fa.trustForwardHeader fa.authRequestHeaders) = .ok resp →
        resp.Body = .ok body →
        (resp.StatusCode < 200 ∨ resp.StatusCode ≥ 300) →
        resp.Location env fa.address = .error (.parse msg) →
        (ServeHTTP fa env rwHeader req).events =
          [.Do (writeHeader req [] fa.trustForwardHeader fa.authRequestHeaders),
            .WriteHeader 500]))) := by
  refine ⟨?_, ?_⟩
  · intro hnew
    unfold ServeHTTP
    simp [hgate, hnew]
  · intro hnew
    refine ⟨?_, ?_, ?_⟩
    · intro e hdo
      unfold ServeHTTP
      simp [hgate, hnew, hdo]
    · intro resp e hdo hbody
      unfold ServeHTTP
      simp [hgate, hnew, hdo, hbody]
    · intro resp body msg hdo hbody hs hl
      unfold ServeHTTP
      simp [hgate, hnew, hdo, hbody, hs, hl]

/-- C14 at a concrete input: the configured address is not a valid URL. -/
theorem ServeHTTP_terminal_failure_witness :
    (ServeHTTP sampleForwardAuth badAddressEnv [] sampleRequest).events = [.WriteHeader 500] :=
  (ServeHTTP_terminal_failure sampleForwardAuth badAddressEnv [] sampleRequest (by decide)).1
    rfl

/-! ## The header utilities -/

/-- C15: `filterForwardRequestHeaders h allowed` is `h` when `allowed` is
empty; otherwise its keys are exactly the canonical forms of the names of
`allowed` for which `h` has at least one value, and each such key holds the
full value list `h` has for the name. -/
theorem filterForwardRequestHeaders_spec (h : Header) (allowed : List String) :
    filterForwardRequestHeaders h [] = h ∧
    (allowed ≠ [] →
      (∀ k, k ∈ (filterForwardRequestHeaders h allowed).keys ↔
        ∃ n ∈ allowed, CanonicalHeaderKey n = k ∧ h.Values n ≠ []) ∧
      (∀ n ∈ allowed, h.Values n ≠ [] →
        (filterForwardRequestHeaders h allowed).lookup (CanonicalHeaderKey n)
          = some (h.Values n))) := by
  refine ⟨rfl, ?_⟩
  intro hne
  constructor
  · intro k
    rw [mem_keys_iff, lookup_filterForwardRequestHeaders, if_neg hne]
    constructor
    · intro hk
      by_cases hc : k ∈ allowed.map CanonicalHeaderKey ∧ (h.index k).length > 0
      · obtain ⟨n, hn, hnk⟩ := List.mem_map.1 hc.1
        refine ⟨n, hn, hnk, ?_⟩
        rw [Header.Values, hnk]
        exact List.length_pos.1 hc.2
      · rw [if_neg hc] at hk
        exact absurd rfl hk
    · rintro ⟨n, hn, hnk, hv⟩
      rw [Header.Values, hnk] at hv
      rw [if_pos ⟨List.mem_map.2 ⟨n, hn, hnk⟩, List.length_pos.2 hv⟩]
      simp
  · intro n hn hv
    rw [lookup_filterForwardRequestHeaders, if_neg hne]
    rw [Header.Values] at hv ⊢
    rw [if_pos ⟨List.mem_map.2 ⟨n, hn, rfl⟩, List.length_pos.2 hv⟩]

/-- C16 as stated fails: a source key `x-a` is not merged into the
destination's `X-A`; the destination keeps `X-A` as it was and gains a second
entry `x-a`. -/
theorem CopyHeaders_no_canonicalization :
    (CopyHeaders [("X-A", ["1"])] [("x-a", ["2"])]).lookup "X-A" = some ["1"] ∧
      (CopyHeaders [("X-A", ["1"])] [("x-a", ["2"])]).lookup "x-a" = some ["2"] ∧
      CanonicalHeaderKey "x-a" = "X-A" := by
  decide

/-- C16, amended: `CopyHeaders dst src` is a multi-valued append on the keys
as they are stored, without canonicalization: every key reads afterwards the
destination's previous values followed by the source's values for that same
key, a key the source lacks reads what it read before, and so a name looked up
under its canonical form reads the destination's previous values for the
canonical key followed by the source's values for the canonical key. -/
theorem CopyHeaders_spec (dst src : Header) (hnd : src.keys.Nodup) :
    (∀ k, (CopyHeaders dst src).index k = dst.index k ++ src.index k) ∧
    (∀ k vv, src.lookup k = some vv →
      (CopyHeaders dst src).lookup k = some (dst.index k ++ vv)) ∧
    (∀ k, src.lookup k = none → (CopyHeaders dst src).lookup k = dst.lookup k) ∧
    (∀ n, (CopyHeaders dst src).Values n = dst.Values n ++ src.Values n) := by
  have hidx : ∀ k, (CopyHeaders dst src).index k = dst.index k ++ src.index k := by
    intro k
    simp only [Header.index, lookup_CopyHeaders src hnd dst k]
    cases src.lookup k <;> simp
  refine ⟨hidx, ?_, ?_, ?_⟩
  · intro k vv hk
    rw [lookup_CopyHeaders src hnd dst k, hk]
  · intro k hk
    rw [lookup_CopyHeaders src hnd dst k, hk]
  · intro n
    exact hidx (CanonicalHeaderKey n)

/-- C16, amended, at a concrete input: `X-A` is in both maps. -/
theorem CopyHeaders_spec_witness :
    (CopyHeaders [("X-A", ["1"])] [("X-A", ["2", "3"])]).Values "x-a" = ["1", "2", "3"] :=
  (CopyHeaders_spec [("X-A", ["1"])] [("X-A", ["2", "3"])] (by decide)).2.2.2 "x-a"

/-- C17: with a non-empty `authRequestHeaders`, every key of the outbound
header set built by `writeHeader` is one of the six `X-Forwarded-*` names or
the canonical form of a name of `authRequestHeaders`, holding the inbound
values for that name. -/
theorem writeHeader_allow_list (req : Request) (t : Bool) (allowed : List String)
    (hne : allowed ≠ []) (hnd : req.Header.keys.Nodup) :
    ∀ k ∈ (writeHeader req [] t allowed).keys,
      k ∈ [XForwardedFor, xForwardedMethod, XForwardedProto, XForwardedPort,
        XForwardedHost, xForwardedURI] ∨
      ∃ n ∈ allowed, CanonicalHeaderKey n = k ∧
        (writeHeader req [] t allowed).lookup k = some (req.Header.Values n) := by
  intro k hk
  by_cases hx : k ∈ [XForwardedFor, xForwardedMethod, XForwardedProto, XForwardedPort,
      XForwardedHost, xForwardedURI]
  · exact Or.inl hx
  · right
    rw [mem_keys_iff, lookup_writeHeader_other _ _ _ _ _ hx,
      lookup_filterForwardRequestHeaders, if_neg hne] at hk
    rw [lookup_writeHeader_other _ _ _ _ _ hx, lookup_filterForwardRequestHeaders, if_neg hne]
    by_cases hc : k ∈ allowed.map CanonicalHeaderKey ∧
        ((RemoveHeaders (CopyHeaders [] req.Header) hopHeaders).index k).length > 0
    · obtain ⟨n, hn, hnk⟩ := List.mem_map.1 hc.1
      refine ⟨n, hn, hnk, ?_⟩
      rw [if_pos hc]
      have hidx : (RemoveHeaders (CopyHeaders [] req.Header) hopHeaders).index k =
          req.Header.index k := by
        have hpos := hc.2
        simp only [Header.index, lookup_RemoveHeaders] at hpos ⊢
        by_cases hh : k ∈ hopHeaders.map CanonicalHeaderKey
        · rw [if_pos hh] at hpos
          simp at hpos
        · rw [if_neg hh, lookup_CopyHeaders _ hnd]
          cases req.Header.lookup k <;> simp [Header.index, Header.lookup]
      rw [hidx, Header.Values, hnk]
    · rw [if_neg hc] at hk
      exact absurd rfl hk

/-- C17 at a concrete input: with the allow-list `["x-user"]` the key `X-User`
of the outbound request is the canonical form of the allowed name and holds
the inbound values. -/
theorem writeHeader_allow_list_witness :
    "X-User" ∈ [XForwardedFor, xForwardedMethod, XForwardedProto, XForwardedPort,
        XForwardedHost, xForwardedURI] ∨
      ∃ n ∈ ["x-user"], CanonicalHeaderKey n = "X-User" ∧
        (writeHeader sampleRequest [] false ["x-user"]).lookup "X-User"
          = some (sampleRequest.Header.Values n) :=
  writeHeader_allow_list sampleRequest false ["x-user"] (by decide) (by decide) "X-User"
    (by decide)

/-! ## `writeHeader` on slices: the inbound request is left as it was -/

theorem view_delete (m : Store) (h : RefHeader) (k : String) :
    m.view (h.delete k) = (m.view h).delete k := by
  induction h with
  | nil => rfl
  | cons e rest ih =>
    obtain ⟨a, s⟩ := e
    simp only [Store.view] at ih
    by_cases hak : a = k
    · simp [RefHeader.delete, Header.delete, Store.view, hak, ih]
    · simp [RefHeader.delete, Header.delete, Store.view, hak, ih]

theorem view_assign (m : Store) (h : RefHeader) (k : String) (s : Option Slice) :
    m.view (h.assign k s) = (m.view h).assign k (m.read s) := by
  induction h with
  | nil => rfl
  | cons e rest ih =>
    obtain ⟨a, s'⟩ := e
    have hd := view_delete m rest k
    simp only [Store.view] at ih hd
    by_cases hak : a = k
    · simp [RefHeader.assign, Header.assign, Store.view, hak, hd]
    · simp [RefHeader.assign, Header.assign, Store.view, hak, ih]

theorem view_lookup (m : Store) (h : RefHeader) (k : String) :
    (m.view h).lookup k = (h.lookup k).map m.read := by
  induction h with
  | nil => rfl
  | cons e rest ih =>
    obtain ⟨a, s'⟩ := e
    simp only [Store.view] at ih
    by_cases hak : a = k
    · simp [RefHeader.lookup, Header.lookup, Store.view, hak]
    · simp [RefHeader.lookup, Header.lookup, Store.view, hak, ih]

theorem view_index (m : Store) (h : RefHeader) (k : String) :
    (m.view h).index k = m.read (h.index k) := by
  simp only [Header.index, RefHeader.index, view_lookup]
  cases h.lookup k <;> rfl

theorem view_keys (m : Store) (h : RefHeader) : (m.view h).keys = h.keys := by
  simp [Store.view, Header.keys, RefHeader.keys]

theorem mem_of_mem_delete (h : RefHeader) (k : String) (e : String × Option Slice)
    (he : e ∈ h.delete k) : e ∈ h := by
  induction h with
  | nil => simp [RefHeader.delete] at he
  | cons x rest ih =>
    obtain ⟨a, s⟩ := x
    by_cases hak : a = k
    · simp only [RefHeader.delete, hak, if_true] at he
      exact List.mem_cons_of_mem _ (ih he)
    · simp only [RefHeader.delete, hak, if_false, List.mem_cons] at he
      rcases he with h1 | h1
      · rw [h1]; exact List.mem_cons_self _ _
      · exact List.mem_cons_of_mem _ (ih h1)

theorem mem_of_mem_assign (h : RefHeader) (k : String) (s : Option Slice)
    (e : String × Option Slice) (he : e ∈ h.assign k s) : e = (k, s) ∨ e ∈ h := by
  induction h with
  | nil =>
    simp only [RefHeader.assign, List.mem_singleton] at he
    exact Or.inl he
  | cons x rest ih =>
    obtain ⟨a, s'⟩ := x
    by_cases hak : a = k
    · simp only [RefHeader.assign, hak, if_true, List.mem_cons] at he
      rcases he with h1 | h1
      · exact Or.inl h1
      · exact Or.inr (List.mem_cons_of_mem _ (mem_of_mem_delete _ _ _ h1))
    · simp only [RefHeader.assign, hak, if_false, List.mem_cons] at he
      rcases he with h1 | h1
      · right; rw [h1]; exact List.mem_cons_self _ _
      · rcases ih h1 with h2 | h2
        · exact Or.inl h2
        · exact Or.inr (List.mem_cons_of_mem _ h2)

theorem read_append (m extra : Store) (s : Slice) (hs : s.array < m.length) :
    (m ++ extra).read (some s) = m.read (some s) := by
  simp only [Store.read, List.getD_append _ _ _ _ hs]

theorem validIn_append (h : RefHeader) (m extra : Store) (hv : h.validIn m) :
    h.validIn (m ++ extra) := by
  intro e he s hs
  obtain ⟨h1, h2⟩ := hv e he s hs
  refine ⟨?_, ?_⟩
  · rw [List.length_append]; omega
  · rw [List.getD_append _ _ _ _ h1]; exact h2

theorem view_append (h : RefHeader) (m extra : Store) (hv : h.validIn m) :
    (m ++ extra).view h = m.view h := by
  simp only [Store.view]
  apply List.map_congr_left
  intro e he
  cases hs : e.2 with
  | none => rfl
  | some s =>
    rw [read_append m extra s (hv e he s hs).1]

theorem validIn_delete (h : RefHeader) (m : Store) (k : String) (hv : h.validIn m) :
    (h.delete k).validIn m :=
  fun e he => hv e (mem_of_mem_delete h k e he)

theorem validIn_assign (h : RefHeader) (m : Store) (k : String) (s : Option Slice)
    (hv : h.validIn m)
    (hs : ∀ r, s = some r → r.array < m.length ∧ r.len ≤ (m.getD r.array []).length) :
    (h.assign k s).validIn m := by
  intro e he r hr
  rcases mem_of_mem_assign h k s e he with h1 | h1
  · rw [h1] at hr
    exact hs r hr
  · exact hv e h1 r hr

theorem length_read (m : Store) (s : Option Slice)
    (hs : ∀ r, s = some r → r.array < m.length ∧ r.len ≤ (m.getD r.array []).length) :
    (m.read s).length = sliceLen s := by
  cases s with
  | none => rfl
  | some r =>
    simp only [Store.read, sliceLen, List.length_take]
    exact Nat.min_eq_left (hs r rfl).2

/-- Appending to the nil slice: the store grows by at most one array, and the
new slice lies in it and reads the values appended. -/
theorem goAppend_nil (grow : Nat → Nat) (m : Store) (vv : List String) :
    (∃ extra, (goAppend grow m none vv).1 = m ++ extra) ∧
    (goAppend grow m none vv).1.read (goAppend grow m none vv).2 = vv ∧
    (∀ r, (goAppend grow m none vv).2 = some r →
      r.array < (goAppend grow m none vv).1.length ∧
        r.len ≤ ((goAppend grow m none vv).1.getD r.array []).length) := by
  unfold goAppend
  by_cases hvv : vv = []
  · simp only [hvv, if_true]
    exact ⟨⟨[], by simp⟩, rfl, fun r hr => by cases hr⟩
  · simp only [hvv, if_false]
    refine ⟨⟨[vv], rfl⟩, ?_, ?_⟩
    · simp [Store.read]
    · intro r hr
      cases hr
      simp

theorem Tracks.view_req {m0 : Store} {st : Store × RefHeader} {p : Header}
    (ht : Tracks m0 st p) (reqHeader : RefHeader) (hv : reqHeader.validIn m0) :
    st.1.view reqHeader = m0.view reqHeader := by
  obtain ⟨extra, he⟩ := ht.1
  rw [he, view_append _ _ _ hv]

theorem Tracks_assign_new (m0 : Store) (st : Store × RefHeader) (p : Header) (k : String)
    (vv : List String) (grow : Nat → Nat) (ht : Tracks m0 st p) :
    Tracks m0 ((goAppend grow st.1 none vv).1, st.2.assign k (goAppend grow st.1 none vv).2)
      (p.assign k vv) := by
  obtain ⟨⟨extra, he⟩, hv, hp⟩ := ht
  obtain ⟨⟨ex2, h1⟩, h2, h3⟩ := goAppend_nil grow st.1 vv
  refine ⟨⟨extra ++ ex2, ?_⟩, ?_, ?_⟩
  · rw [h1, he, List.append_assoc]
  · apply validIn_assign
    · simp only [h1]
      exact validIn_append _ _ _ hv
    · exact h3
  · simp only [view_assign, h2]
    rw [h1, view_append _ _ _ hv, hp]

theorem Tracks_refSet (m0 : Store) (st : Store × RefHeader) (p : Header) (key value : String)
    (ht : Tracks m0 st p) : Tracks m0 (refSet st key value) (p.Set key value) := by
  obtain ⟨⟨extra, he⟩, hv, hp⟩ := ht
  refine ⟨⟨extra ++ [[value]], ?_⟩, ?_, ?_⟩
  · simp only [refSet, he, List.append_assoc]
  · apply validIn_assign
    · exact validIn_append _ _ _ hv
    · intro r hr
      cases hr
      simp [refSet]
  · simp only [refSet, view_assign, Header.Set]
    rw [view_append _ _ _ hv, hp]
    simp [Store.read]

theorem Tracks_Del (m0 : Store) (st : Store × RefHeader) (p : Header) (key : String)
    (ht : Tracks m0 st p) : Tracks m0 (st.1, st.2.Del key) (p.Del key) := by
  obtain ⟨hex, hv, hp⟩ := ht
  refine ⟨hex, validIn_delete _ _ _ hv, ?_⟩
  simp only [RefHeader.Del, Header.Del, view_delete]
  rw [hp]

theorem Tracks_RemoveHeaders (m0 : Store) (names : List String) (st : Store × RefHeader)
    (p : Header) (ht : Tracks m0 st p) :
    Tracks m0 (st.1, RemoveHeadersRef st.2 names) (RemoveHeaders p names) := by
  induction names generalizing st p with
  | nil => exact ht
  | cons n rest ih =>
    have h := ih (st.1, st.2.Del n) (p.Del n) (Tracks_Del m0 st p n ht)
    simpa [RemoveHeadersRef, RemoveHeaders] using h

theorem ref_lookup_assign_ne (h : RefHeader) (k k' : String) (s : Option Slice)
    (hk : k' ≠ k) : (h.assign k s).lookup k' = h.lookup k' := by
  have h1 := view_lookup [] (h.assign k s) k'
  induction h with
  | nil =>
    have hk2 : ¬ k = k' := fun e => hk e.symm
    simp [RefHeader.assign, RefHeader.lookup, hk2]
  | cons e rest ih =>
    obtain ⟨a, s'⟩ := e
    by_cases hak : a = k
    · have hk2 : ¬ k = k' := fun e => hk e.symm
      simp only [RefHeader.assign, hak, if_true, RefHeader.lookup, hk2, if_false]
      clear ih h1
      induction rest with
      | nil => rfl
      | cons e2 r2 ih2 =>
        obtain ⟨b, s2⟩ := e2
        by_cases hbk : b = k
        · have hb2 : ¬ b = k' := by rw [hbk]; exact hk2
          simp [RefHeader.delete, RefHeader.lookup, hbk, hk2, ih2]
        · simp [RefHeader.delete, RefHeader.lookup, hbk, ih2]
    · simp only [RefHeader.assign, hak, if_false, RefHeader.lookup]
      by_cases hak' : a = k'
      · simp [hak']
      · simp only [hak', if_false]
        exact ih (view_lookup [] _ k')

/-- The copy of the inbound headers into a map that holds none of their keys:
every value list is appended to the nil slice. -/
theorem Tracks_CopyHeaders (grow : Nat → Nat) (m0 : Store) (src : RefHeader)
    (hsrc : src.validIn m0) (hnd : src.keys.Nodup) (st : Store × RefHeader) (p : Header)
    (hfresh : ∀ k ∈ src.keys, st.2.lookup k = none) (ht : Tracks m0 st p) :
    Tracks m0 (CopyHeadersRef grow st.1 st.2 src) (CopyHeaders p (m0.view src)) := by
  induction src generalizing st p with
  | nil => exact ht
  | cons e rest ih =>
    obtain ⟨k, s⟩ := e
    simp only [RefHeader.keys, List.map_cons, List.nodup_cons] at hnd
    have hrest : RefHeader.validIn rest m0 := fun e he => hsrc e (List.mem_cons_of_mem _ he)
    have hk : st.2.lookup k = none := hfresh k (by simp [RefHeader.keys])
    have hidx : st.2.index k = none := by simp [RefHeader.index, hk]
    have hpidx : p.index k = [] := by
      rw [← ht.2.2, view_index, hidx]; rfl
    have hread : st.1.read s = m0.read s := by
      cases s with
      | none => rfl
      | some r =>
        obtain ⟨extra, he⟩ := ht.1
        rw [he, read_append _ _ _ (hsrc (k, some r) (List.mem_cons_self _ _) r rfl).1]
    have hstep := Tracks_assign_new m0 st p k (st.1.read s) grow ht
    have hnext := ih hrest hnd.2
      ((goAppend grow st.1 none (st.1.read s)).1,
        st.2.assign k (goAppend grow st.1 none (st.1.read s)).2)
      (p.assign k (st.1.read s))
      (by
        intro k' hk'
        have hne : k' ≠ k := by
          intro e; rw [e] at hk'; exact hnd.1 hk'
        simp only
        rw [ref_lookup_assign_ne _ _ _ _ hne]
        exact hfresh k' (by simp only [RefHeader.keys, List.map_cons, List.mem_cons]
                            exact Or.inr hk'))
      hstep
    simp only [CopyHeadersRef, List.foldl_cons, hidx] at hnext ⊢
    simp only [CopyHeaders, Store.view, List.map_cons, List.foldl_cons, hpidx,
      List.nil_append] at hnext ⊢
    rw [hread] at hnext ⊢
    exact hnext

theorem ref_mem_of_lookup (h : RefHeader) (k : String) (s : Option Slice)
    (hl : h.lookup k = some s) : (k, s) ∈ h := by
  induction h with
  | nil => simp [RefHeader.lookup] at hl
  | cons e rest ih =>
    obtain ⟨a, s'⟩ := e
    by_cases hak : a = k
    · simp only [RefHeader.lookup, hak, if_true, Option.some.injEq] at hl
      rw [hak, hl]; exact List.mem_cons_self _ _
    · simp only [RefHeader.lookup, hak, if_false] at hl
      exact List.mem_cons_of_mem _ (ih hl)

theorem valid_index (h : RefHeader) (m : Store) (hv : h.validIn m) (k : String) :
    ∀ r, h.index k = some r → r.array < m.length ∧ r.len ≤ (m.getD r.array []).length := by
  intro r hr
  cases hl : h.lookup k with
  | none => simp [RefHeader.index, hl] at hr
  | some s =>
    simp only [RefHeader.index, hl, Option.getD_some] at hr
    rw [hr] at hl
    exact hv (k, some r) (ref_mem_of_lookup h k _ hl) r rfl

theorem read_of_extends (m extra : Store) (s : Option Slice)
    (hs : ∀ r, s = some r → r.array < m.length ∧ r.len ≤ (m.getD r.array []).length) :
    (m ++ extra).read s = m.read s := by
  cases s with
  | none => rfl
  | some r => exact read_append m extra r (hs r rfl).1

theorem validIn_nil (m : Store) : RefHeader.validIn [] m :=
  fun e he => absurd he (List.not_mem_nil e)

theorem Tracks_filter_fold (grow : Nat → Nat) (m0 : Store) (st : Store × RefHeader)
    (p : Header) (ht : Tracks m0 st p) (allowed : List String) (acc : Store × RefHeader)
    (accp : Header) (hext : ∃ extra, acc.1 = st.1 ++ extra) (hacc : Tracks m0 acc accp) :
    Tracks m0
      (allowed.foldl (fun acc headerName =>
        let values := st.2.index (CanonicalHeaderKey headerName)
        if sliceLen values > 0 then
          let r := goAppend grow acc.1 none (acc.1.read values)
          (r.1, acc.2.assign (CanonicalHeaderKey headerName) r.2)
        else acc) acc)
      (allowed.foldl (fun filteredHeaders headerName =>
        let values := p.Values headerName
        if values.length > 0 then
          filteredHeaders.assign (CanonicalHeaderKey headerName) values
        else filteredHeaders) accp) := by
  induction allowed generalizing acc accp with
  | nil => exact hacc
  | cons n rest ih =>
    simp only [List.foldl_cons]
    have hvi := valid_index st.2 st.1 ht.2.1 (CanonicalHeaderKey n)
    have hval : p.Values n = st.1.read (st.2.index (CanonicalHeaderKey n)) := by
      rw [Header.Values, ← ht.2.2, view_index]
    have hlen : (p.Values n).length = sliceLen (st.2.index (CanonicalHeaderKey n)) := by
      rw [hval, length_read _ _ hvi]
    obtain ⟨extra, he⟩ := hext
    have hread : acc.1.read (st.2.index (CanonicalHeaderKey n)) = p.Values n := by
      rw [he, read_of_extends _ _ _ hvi, hval]
    by_cases hpos : sliceLen (st.2.index (CanonicalHeaderKey n)) > 0
    · have hpos2 : (p.Values n).length > 0 := by rw [hlen]; exact hpos
      simp only [hpos, hpos2, if_true]
      apply ih
      · obtain ⟨ex2, h2⟩ := (goAppend_nil grow acc.1
          (acc.1.read (st.2.index (CanonicalHeaderKey n)))).1
        exact ⟨extra ++ ex2, by simp only []; rw [h2, he, List.append_assoc]⟩
      · have h := Tracks_assign_new m0 acc accp (CanonicalHeaderKey n)
          (acc.1.read (st.2.index (CanonicalHeaderKey n))) grow hacc
        rw [hread] at h ⊢
        exact h
    · have hpos2 : ¬ (p.Values n).length > 0 := by rw [hlen]; exact hpos
      simp only [hpos, hpos2, if_false]
      exact ih acc accp ⟨extra, he⟩ hacc

theorem Tracks_filter (grow : Nat → Nat) (m0 : Store) (st : Store × RefHeader)
    (p : Header) (ht : Tracks m0 st p) (allowed : List String) :
    Tracks m0 (filterForwardRequestHeadersRef grow st allowed)
      (filterForwardRequestHeaders p allowed) := by
  unfold filterForwardRequestHeadersRef filterForwardRequestHeaders
  by_cases h0 : allowed.length = 0
  · simp only [h0, if_true]
    exact ht
  · simp only [h0, if_false]
    apply Tracks_filter_fold grow m0 st p ht allowed (st.1, []) []
    · exact ⟨[], by simp⟩
    · exact ⟨ht.1, validIn_nil _, rfl⟩

theorem Tracks_writeForwardedFor (m0 : Store) (reqHeader : RefHeader) (req : Request)
    (t : Bool) (hv : reqHeader.validIn m0) (st : Store × RefHeader) (p : Header)
    (ht : Tracks m0 st p) :
    Tracks m0 (writeForwardedForRef reqHeader req t st)
      (writeForwardedFor { req with Header := m0.view reqHeader } t p) := by
  unfold writeForwardedForRef writeForwardedFor
  cases hsp : SplitHostPort req.RemoteAddr with
  | none => simpa [hsp] using ht
  | some ip =>
    simp only [hsp, view_lookup]
    cases hl : RefHeader.lookup reqHeader XForwardedFor with
    | none =>
      simp only [Option.map_none']
      exact Tracks_refSet m0 st p _ _ ht
    | some prior =>
      simp only [Option.map_some']
      have hread : st.1.read prior = m0.read prior := by
        obtain ⟨extra, he⟩ := ht.1
        rw [he]
        apply read_of_extends
        intro r hr
        rw [hr] at hl
        exact hv _ (ref_mem_of_lookup _ _ _ hl) r rfl
      rw [hread]
      exact Tracks_refSet m0 st p _ _ ht

theorem Tracks_writeTrusted (m0 : Store) (reqHeader : RefHeader) (req : Request)
    (t : Bool) (name actual : String) (hv : reqHeader.validIn m0) (st : Store × RefHeader)
    (p : Header) (ht : Tracks m0 st p) :
    Tracks m0 (writeTrustedRef reqHeader t name actual st)
      (writeTrusted { req with Header := m0.view reqHeader } t name actual p) := by
  unfold writeTrustedRef writeTrusted
  simp only [ht.view_req reqHeader hv]
  split_ifs
  · exact Tracks_refSet m0 st p _ _ ht
  · exact Tracks_refSet m0 st p _ _ ht
  · exact Tracks_Del m0 st p _ ht

theorem Tracks_writeForwardedProto (m0 : Store) (reqHeader : RefHeader) (req : Request)
    (t : Bool) (hv : reqHeader.validIn m0) (st : Store × RefHeader)
    (p : Header) (ht : Tracks m0 st p) :
    Tracks m0 (writeForwardedProtoRef reqHeader req t st)
      (writeForwardedProto { req with Header := m0.view reqHeader } t p) := by
  unfold writeForwardedProtoRef writeForwardedProto
  simp only [ht.view_req reqHeader hv]
  split_ifs
  · exact Tracks_refSet m0 st p _ _ ht
  · exact Tracks_refSet m0 st p _ _ ht
  · exact Tracks_refSet m0 st p _ _ ht

theorem Tracks_writeForwardedPort (m0 : Store) (reqHeader : RefHeader) (req : Request)
    (t : Bool) (hv : reqHeader.validIn m0) (st : Store × RefHeader)
    (p : Header) (ht : Tracks m0 st p) :
    Tracks m0 (writeForwardedPortRef reqHeader t st)
      (writeForwardedPort { req with Header := m0.view reqHeader } t p) := by
  unfold writeForwardedPortRef writeForwardedPort
  simp only [ht.view_req reqHeader hv]
  split_ifs
  · exact Tracks_refSet m0 st p _ _ ht
  · exact ht

/-- The slice model of `writeHeader` computes the header map `writeHeader`
computes, and its store only grows. -/
theorem Tracks_writeHeader (grow : Nat → Nat) (m : Store) (reqHeader : RefHeader)
    (req : Request) (t : Bool) (allowed : List String)
    (hv : reqHeader.validIn m) (hnd : reqHeader.keys.Nodup) :
    Tracks m (writeHeaderRef grow m reqHeader req [] t allowed)
      (writeHeader { req with Header := m.view reqHeader } [] t allowed) := by
  have h0 : Tracks m (m, ([] : RefHeader)) [] :=
    ⟨⟨[], by simp⟩, validIn_nil _, rfl⟩
  have h1 := Tracks_CopyHeaders grow m reqHeader hv hnd (m, []) [] (fun _ _ => rfl) h0
  have h2 := Tracks_RemoveHeaders m hopHeaders _ _ h1
  have h3 := Tracks_filter grow m _ _ h2 allowed
  have h4 := Tracks_writeForwardedFor m reqHeader req t hv _ _ h3
  have h5 := Tracks_writeTrusted m reqHeader req t xForwardedMethod req.Method hv _ _ h4
  have h6 := Tracks_writeForwardedProto m reqHeader req t hv _ _ h5
  have h7 := Tracks_writeForwardedPort m reqHeader req t hv _ _ h6
  have h8 := Tracks_writeTrusted m reqHeader req t XForwardedHost req.Host hv _ _ h7
  exact Tracks_writeTrusted m reqHeader req t xForwardedURI req.URL.requestURI hv _ _ h8

/-- C19: when the value lists of the inbound request lie in the store and the
outbound header map is empty before the call, `writeHeader` leaves every
backing array that existed before the call as it was, so the inbound header
map reads after the call exactly what it read before (every name, every value
list); the outbound header map it builds reads as `writeHeader` of the value
model. -/
theorem writeHeaderRef_frame (grow : Nat → Nat) (m : Store) (reqHeader : RefHeader)
    (req : Request) (t : Bool) (allowed : List String)
    (hv : reqHeader.validIn m) (hnd : reqHeader.keys.Nodup) :
    (writeHeaderRef grow m reqHeader req [] t allowed).1.view reqHeader = m.view reqHeader ∧
    (writeHeaderRef grow m reqHeader req [] t allowed).1.take m.length = m ∧
    (writeHeaderRef grow m reqHeader req [] t allowed).1.view
        (writeHeaderRef grow m reqHeader req [] t allowed).2 =
      writeHeader { req with Header := m.view reqHeader } [] t allowed := by
  obtain ⟨⟨extra, he⟩, _, hp⟩ := Tracks_writeHeader grow m reqHeader req t allowed hv hnd
  refine ⟨?_, ?_, hp⟩
  · rw [he, view_append _ _ _ hv]
  · rw [he, List.take_left]

theorem sampleRefHeader_validIn : sampleRefHeader.validIn sampleStore := by
  intro e he s hs
  simp only [sampleRefHeader, List.mem_cons, List.mem_singleton, List.not_mem_nil,
    or_false] at he
  rcases he with rfl | rfl | rfl <;> cases hs <;> decide

/-- C19 at a concrete input: the headers of `sampleRequest`, held in three
backing arrays. -/
theorem writeHeaderRef_frame_witness :
    (writeHeaderRef id sampleStore sampleRefHeader sampleRequest [] true []).1.view
        sampleRefHeader = sampleRequest.Header ∧
      (writeHeaderRef id sampleStore sampleRefHeader sampleRequest [] true []).1.take 3
        = sampleStore :=
  have h := writeHeaderRef_frame id sampleStore sampleRefHeader sampleRequest true []
    sampleRefHeader_validIn (by decide)
  ⟨h.1, h.2.1⟩

/-- The hypothesis that the outbound header map is empty matters: if it holds a
slice of spare capacity on an array the inbound request also uses, the copy
appends in place and the inbound request reads other values afterwards. -/
theorem CopyHeadersRef_shared_array :
    sharedStore.view [("X-A", some ⟨0, 3, 4⟩)] = [("X-A", ["a", "b", "c"])] ∧
      (CopyHeadersRef id sharedStore [("X-A", some ⟨0, 1, 4⟩)] [("X-A", some ⟨0, 3, 4⟩)]).1.view
        [("X-A", some ⟨0, 3, 4⟩)] = [("X-A", ["a", "a", "b"])] := by
  decide

end Forwardauth
